import Mathlib

/-!
Verification development for the pycvsps repository (a Python reimplementation
of cvsps: it parses CVS rlog output and synthesizes changesets).

The definitions below are a shallow embedding, translated from
`src/pycvsps/dateutil.py` and `src/pycvsps/cvsps.py`.  Python tuples become
Lean products or lists, Python `None`/optional values become `Option`,
Python exceptions become explicit error results (`Except`, or dedicated
result types), and the mutable loops become folds or fuel-indexed recursion.
Machine integers are modelled as `Int` (Python integers are unbounded, so no
wrap-around modelling is needed; the 32-bit range checks of `parsedate` are
explicit comparisons in the source and are embedded as such).
-/

/-! ## dateutil.py: `parsedate` (lines 157-210)

`parsedate(date, formats, bias)` accepts either a `(unixtime, offset)` tuple
(returned unchanged), a falsy value (returns `(0, 0)`), or a string.  A string
is first tried as `"unixtime offset"` (two integers separated by one space);
otherwise each format in `formats` (default `defaultdateformats`) is tried via
`strdate` until one succeeds, else `Abort('invalid date')` is raised.  A parsed
pair is then range-checked: the timestamp must fit in signed 32 bits and the
offset must lie in `[-50400, 43200]`, else `Abort` is raised.

`strdate` itself calls `time.strptime`/`time.mktime` (platform C library) and
uses the current wall-clock time for defaults, so it is not a pure function of
its arguments; it is passed in as a parameter `sd : String → String → Option
(Int × Int)` (`none` models `(ValueError, OverflowError)` being raised, which
`parsedate` catches).  All claims below are about `parsedate`'s own control
flow, which is independent of the particular `sd`.
-/

/-- The tuple `defaultdateformats` from dateutil.py (lines 12-44), kept only as
the opaque list of format strings that `parsedate` iterates over. -/
def defaultdateformats : List String :=
  [ "%Y-%m-%dT%H:%M:%S", "%Y-%m-%dT%H:%M", "%Y-%m-%dT%H%M%S", "%Y-%m-%dT%H%M",
    "%Y-%m-%d %H:%M:%S", "%Y-%m-%d %H:%M", "%Y-%m-%d %H%M%S", "%Y-%m-%d %H%M",
    "%Y-%m-%d %I:%M:%S%p", "%Y-%m-%d %H:%M", "%Y-%m-%d %I:%M%p", "%Y-%m-%d",
    "%m-%d", "%m/%d", "%m/%d/%y", "%m/%d/%Y",
    "%a %b %d %H:%M:%S %Y", "%a %b %d %I:%M:%S%p %Y",
    "%a, %d %b %Y %H:%M:%S",
    "%b %d %H:%M:%S %Y", "%b %d %I:%M:%S%p %Y", "%b %d %H:%M:%S",
    "%b %d %I:%M:%S%p", "%b %d %H:%M", "%b %d %I:%M%p", "%b %d %Y", "%b %d",
    "%H:%M:%S", "%I:%M:%S%p", "%H:%M", "%I:%M%p" ]

/-- A Python `int(s)` conversion: optional sign followed by one or more
decimal digits (the underscore-separator extension of Python 3.6 is not
modelled).  `none` models `ValueError`. -/
def digitsToInt? (ds : List Char) : Option Int :=
  if ds ≠ [] ∧ ds.all Char.isDigit then
    some (ds.foldl (fun acc c => acc * 10 + (c.toNat - '0'.toNat : Int)) 0)
  else none

def pyInt? (s : String) : Option Int :=
  match s.toList with
  | [] => none
  | '+' :: ds => digitsToInt? ds
  | '-' :: ds => (digitsToInt? ds).map (fun n => -n)
  | ds => digitsToInt? ds

/-- Python `str.split(sep)` with an explicit one-character separator: every
occurrence splits, empty pieces are kept (`"".split('.') == ['']`). -/
def splitOnCharGo (sep : Char) : List Char → List Char → List (List Char)
  | [], acc => [acc.reverse]
  | c :: rest, acc =>
    if c = sep then acc.reverse :: splitOnCharGo sep rest []
    else splitOnCharGo sep rest (c :: acc)

def pySplit (s : String) (sep : Char) : List String :=
  (splitOnCharGo sep s.toList []).map String.mk

/-- Python `sep.join(list)` with a one-character separator. -/
def joinSep (sep : Char) : List String → String
  | [] => ""
  | [x] => x
  | x :: y :: rest => x ++ String.mk [sep] ++ joinSep sep (y :: rest)

/-- `when, offset = map(int, date.split(' '))` with `ValueError` (from either
the `int` conversions or the unpacking of a wrong-sized sequence) modelled as
`none`. -/
def intPair (s : String) : Option (Int × Int) :=
  match (pySplit s ' ').map pyInt? with
  | [some a, some b] => some (a, b)
  | _ => none

/-- The argument of `parsedate`: either a string or a tuple (modelled as a
list of integers so that tuples of every length can be passed, as in Python).
-/
inductive PDate where
  | str (s : String)
  | tup (t : List Int)
deriving DecidableEq

/-- Which `Abort` was raised (dateutil.py lines 201, 207, 209). -/
inductive AbortKind where
  | invalidDate
  | dateExceeds32Bits
  | impossibleTimeZone
deriving DecidableEq

/-- Result of `parsedate`: a returned pair, a raised `Abort`, or an uncaught
`AttributeError` (`date.strip()` on a tuple whose length is not 2). -/
inductive PDResult where
  | ok (p : Int × Int)
  | abort (k : AbortKind)
  | typeErr
deriving DecidableEq

/-- Python truthiness of the `date` argument (`if not date: return 0, 0`):
the empty string and the empty tuple are falsy. -/
def pyTruthyDate : PDate → Bool
  | .str s => s ≠ ""
  | .tup l => l ≠ []

/-- The `for format in formats: ... else: raise` loop: the first format for
which `strdate` does not raise wins. -/
def tryFormats (sd : String → String → Option (Int × Int)) (s : String) :
    List String → Option (Int × Int)
  | [] => none
  | f :: rest =>
    match sd s f with
    | some p => some p
    | none => tryFormats sd s rest

/-- The validation at the end of `parsedate` (dateutil.py lines 206-210). -/
def checkRanges (w o : Int) : PDResult :=
  if w < -2147483648 ∨ w > 2147483647 then .abort .dateExceeds32Bits
  else if o < -50400 ∨ o > 43200 then .abort .impossibleTimeZone
  else .ok (w, o)

/-- Shallow embedding of `parsedate(date, formats, bias)` (dateutil.py lines
157-210).  `sd` stands for `strdate` applied to the computed defaults (see the
section comment); `bias` only influences those defaults and is absorbed into
`sd` as well. -/
def parsedate (sd : String → String → Option (Int × Int))
    (formats : List String) (date : PDate) : PDResult :=
  if ¬ pyTruthyDate date then .ok (0, 0)
  else
    match date with
    | .tup l => if l.length = 2 then .ok (l.getD 0 0, l.getD 1 0) else .typeErr
    | .str s0 =>
      let fs := if formats = [] then defaultdateformats else formats
      let s := s0.trim
      match intPair s with
      | some (w, o) => checkRanges w o
      | none =>
        match tryFormats sd s fs with
        | some (w, o) => checkRanges w o
        | none => .abort .invalidDate

/-! ## cvsps.py `createlog`: the mergepoint translation (lines 371-380)

In state 6 the date line may carry a `mergepoint: REV;` field.  The source
splits the captured revision on dots; a two-component revision maps to the
branch name `HEAD`; otherwise the revision is collapsed to
`myrev[:-2] + ['0', myrev[-2]]`, rejoined with dots, and looked up among the
values of `branchmap`; exactly one branch must map to it (`assert`).
-/

/-- Errors of the mergepoint translation: a failed `assert` (not exactly one
branch matches) or an `IndexError` (`myrev[-2]` on a list shorter than 2). -/
inductive MPErr where
  | assertFail
  | indexErr
deriving DecidableEq

/-- `'.'.join` / `split('.')` pair. -/
def splitDots (s : String) : List String := pySplit s '.'

def joinDots (l : List String) : String := joinSep '.' l

/-- Translation of a mergepoint revision string to a branch name, embedded
from cvsps.py lines 371-380.  `branchmap` is the association list of
`(branch name, revision string)` pairs collected in state 3, in insertion
order (Python dict iteration order). -/
def mergepointBranch (branchmap : List (String × String)) (mprev : String) :
    Except MPErr (Option String) :=
  let myrev := splitDots mprev
  if myrev.length = 2 then .ok (some "HEAD")
  else if myrev.length < 2 then .error .indexErr
  else
    let key := joinDots (myrev.take (myrev.length - 2) ++
      ["0", myrev.getD (myrev.length - 2) ""])
    let bs := (branchmap.filter (fun bv => bv.2 = key)).map (·.1)
    if bs.length = 1 then .ok (some (bs.getD 0 "")) else .error .assertFail

/-- Modelled from the claim C5's words (not from the source): the looked-up
revision string is formed as `r[:-2] + [0, last component of r]`, that is,
with the LAST component of the revision rather than the second-to-last. -/
def mergepointBranchClaim (branchmap : List (String × String))
    (mprev : String) : Except MPErr (Option String) :=
  let myrev := splitDots mprev
  if myrev.length = 2 then .ok (some "HEAD")
  else if myrev.length < 2 then .error .indexErr
  else
    let key := joinDots (myrev.take (myrev.length - 2) ++
      ["0", myrev.getD (myrev.length - 1) ""])
    let bs := (branchmap.filter (fun bv => bv.2 = key)).map (·.1)
    if bs.length = 1 then .ok (some (bs.getD 0 "")) else .error .assertFail

/-- The amended description of the mergepoint translation: a two-component
revision maps to `HEAD`; otherwise the branch map is searched for the
revision string rebuilt from all but the last two components, a zero, and the
SECOND-TO-LAST component of the revision.  Written independently (with
`dropLast` in place of `take`) to be compared with the embedding. -/
def mergepointBranchAmended (branchmap : List (String × String))
    (mprev : String) : Except MPErr (Option String) :=
  let myrev := splitDots mprev
  if myrev.length = 2 then .ok (some "HEAD")
  else if myrev.length < 2 then .error .indexErr
  else
    let key := joinDots ((myrev.dropLast.dropLast) ++
      ["0", (myrev.dropLast).getLastD ""])
    let bs := (branchmap.filter (fun bv => bv.2 = key)).map (·.1)
    if bs.length = 1 then .ok (some (bs.getD 0 "")) else .error .assertFail

/-! ## cvsps.py `createlog`: state-0 error detection (lines 144-148, 248-279)

The state machine reads lines from the subprocess via `readline`; a trailing
newline is stripped (`if line.endswith('\n'): line = line[:-1]`) before any
pattern is tried.  In state 0 the patterns are tried in the order
`re_00` (`RCS file: (.+)$` — the normal transition), then
`re_01` (`cvs \[r?log aborted\]: (.+)$`), `re_02`
(`cvs (r?log|server): (.+)\n$`) and `re_03`
(`(Cannot access.+CVSROOT)|(can\x27t create temporary directory.+)$`);
a match of `re_01`/`re_02`/`re_03` raises `logerror`.

The regex fragments are embedded for strings as Python `re` treats them:
`.` never matches a newline, and an unescaped `$` also matches just before a
final newline.
-/

/-- `line = line[:-1] if line.endswith('\n') else line` (cvsps.py 253-254). -/
def stripLine (raw : String) : String :=
  if raw.toList.getLast? = some '\n' then String.mk raw.toList.dropLast
  else raw

def noNl (l : List Char) : Bool := !(l.contains '\n')

/-- Match `(.+)$` against the whole of `l`: a nonempty newline-free body,
optionally followed by one final newline; returns the captured body. -/
def dotPlusEnd? (l : List Char) : Option (List Char) :=
  if l ≠ [] ∧ noNl l then some l
  else if l.getLast? = some '\n' ∧ l.dropLast ≠ [] ∧ noNl l.dropLast then
    some l.dropLast
  else none

/-- Match `(.+)\n$` against the whole of `l`: a nonempty newline-free body,
then a literal newline, then the end of the string (or one further final
newline, which `$` tolerates); returns the captured body. -/
def dotPlusNlEnd? (l : List Char) : Option (List Char) :=
  let core := if l.getLast? = some '\n' ∧ l.dropLast.getLast? = some '\n'
    then l.dropLast else l
  if core.getLast? = some '\n' ∧ core.dropLast ≠ [] ∧ noNl core.dropLast then
    some core.dropLast
  else none

/-- `re.match` of a literal pattern piece: if `lit` is a prefix of `line`,
return the remaining characters. -/
def afterLit? (lit : String) (line : String) : Option (List Char) :=
  if lit.toList.isPrefixOf line.toList then
    some (line.toList.drop lit.toList.length)
  else none

/-- Match `.+LIT` at the start of `l`: at least one non-newline character,
then the literal `lit` (anything may follow, as `re.match` only anchors the
start). -/
def dotPlusThenLit (lit : List Char) : List Char → Bool
  | [] => false
  | c :: rest => c ≠ '\n' ∧ (lit.isPrefixOf rest ∨ dotPlusThenLit lit rest)

/-- `re_00.match(line)` succeeded (pattern `RCS file: (.+)$`). -/
def re00Matches (line : String) : Bool :=
  ((afterLit? "RCS file: " line).bind dotPlusEnd?).isSome

/-- `re_01.match(line)`: pattern `cvs \[r?log aborted\]: (.+)$`; returns
group 1. -/
def re01Msg? (line : String) : Option (List Char) :=
  match (afterLit? "cvs [log aborted]: " line).bind dotPlusEnd? with
  | some m => some m
  | none => (afterLit? "cvs [rlog aborted]: " line).bind dotPlusEnd?

/-- `re_02.match(line)`: pattern `cvs (r?log|server): (.+)\n$`; returns
group 2.  Note the pattern demands a newline before the end of the string. -/
def re02Msg? (line : String) : Option (List Char) :=
  match (afterLit? "cvs log: " line).bind dotPlusNlEnd? with
  | some m => some m
  | none =>
    match (afterLit? "cvs rlog: " line).bind dotPlusNlEnd? with
    | some m => some m
    | none => (afterLit? "cvs server: " line).bind dotPlusNlEnd?

/-- `re_03.match(line)`: pattern
`(Cannot access.+CVSROOT)|(can\x27t create temporary directory.+)$`. -/
def re03Matches (line : String) : Bool :=
  (match afterLit? "Cannot access" line with
   | some rest => dotPlusThenLit "CVSROOT".toList rest
   | none => false)
  || (match afterLit? "can\x27t create temporary directory" line with
      | some rest => (dotPlusEnd? rest).isSome
      | none => false)

/-- The state-0 handling of one (already stripped) input line, as far as
error raising is concerned: `some msg` means `raise logerror(msg)`, `none`
means no error is raised on this line (either the `RCS file:` transition
fires or the line is silently ignored). -/
def state0Error (line : String) : Option String :=
  if re00Matches line then none
  else match re01Msg? line with
  | some m => some (String.mk m)
  | none =>
    match re02Msg? line with
    | some m => some (String.mk m)
    | none => if re03Matches line then some line else none

/-! ## cvsps.py: the `logentry` value and the parent-resolution pass

`logentry` (cvsps.py lines 27-53) is a record of one per-file revision.  The
fields are embedded as follows: revisions are `List Int` (Python tuples of
ints; the empty tuple, which the parent pass produces for an initial trunk
revision, is `[]`), optional strings are `Option String`, the `branchpoints`
set is kept as a `List String` (the parser builds it as a Python `set`; the
lists used here are its elements, and the grouping code only tests equality
and size, which agree with set semantics whenever the lists are kept sorted
and duplicate-free, as they are in every concrete log used below), and
`date` is the `(unixtime, tz_offset)` pair. -/
structure LogEntry where
  rcs : String
  file : String
  revision : List Int
  date : Int × Int
  author : String
  dead : Bool
  comment : String
  commitid : Option String
  mergepoint : Option String
  branchpoints : List String
  branches : List (List Int)
  tags : List String
  branch : Option String
  parent : List Int
  lines : Option (Int × Int)
  synthetic : Bool
deriving DecidableEq, Inhabited

/-- Association-list lookup for the `versions` dict of the parent pass
(keys are `(rcs, branch-prefix)` pairs); insertion shadows. -/
def lookupV (m : List ((String × List Int) × List Int))
    (k : String × List Int) : Option (List Int) :=
  (m.find? (fun kv => kv.1 = k)).map (·.2)

def insertV (m : List ((String × List Int) × List Int))
    (k : String × List Int) (v : List Int) :
    List ((String × List Int) × List Int) :=
  (k, v) :: m

/-- The parent-resolution loop of `createlog` (cvsps.py lines 480-486): for
each entry, in order, look up the previously recorded revision of the same
rcs file under the branch prefix `revision[:-1]`; when none exists fall back
to the branch root `revision[:-2]` (the empty tuple for a length-2 revision);
then record the current revision under that key. -/
def parentPassGo (versions : List ((String × List Int) × List Int)) :
    List LogEntry → List LogEntry
  | [] => []
  | e :: rest =>
    let branch := e.revision.take (e.revision.length - 1)
    let p := match lookupV versions (e.rcs, branch) with
      | some r => r
      | none => e.revision.take (e.revision.length - 2)
    { e with parent := p } ::
      parentPassGo (insertV versions (e.rcs, branch) e.revision) rest

/-- Strict comparison used for `log.sort(key=lambda x: (x.rcs, x.revision))`
(cvsps.py line 470): lexicographic on the `(rcs, revision)` pair. -/
def rcsRevLt (a b : LogEntry) : Prop :=
  (compare a.rcs b.rcs).then (compare a.revision b.revision) = .lt

instance : DecidableRel rcsRevLt := fun a b => by
  unfold rcsRevLt; infer_instance

/-- The whole parent-resolution pass in the cache-less case (`oldlog = []`,
so `versions` starts empty): sort by `(rcs, revision)`, then run the loop. -/
def resolveParents (log : List LogEntry) : List LogEntry :=
  parentPassGo [] (List.insertionSort rcsRevLt log)

/-! ## cvsps.py: the `changeset` value (lines 513-638)

`changeset` objects are mutated in place during `createchangeset`, and
`parents` holds references into the changeset list.  The embedding keeps the
evolving list explicit and stores parents as indices into the list as it
stands at the end of the parent-graph walk (insertions during the walk only
ever happen at positions strictly greater than every index recorded so far,
so indices are stable).  The private `_files` and `_versions` sets become
lists queried only for membership.

`changeset.__init__` receives `branchpoints` as either a set (from
`from_logentry`) or `None` (from `from_merge`), hence `Option (List String)`
here. -/
structure CS where
  author : String
  branch : Option String
  comment : String
  commitid : Option String
  date : Int × Int
  branchpoints : Option (List String)
  mergepoint : Option String
  entries : List LogEntry
  parents : List Nat
  tags : List String
  synthetic : Bool
  id : Option Nat
  files : List String
  versions : List (String × List Int)
deriving DecidableEq, Inhabited

/-- `changeset._add(entry)` (cvsps.py lines 576-589): note that
`self.synthetic` is recomputed on every add as
`not self.entries and entry.synthetic`, so only a founding synthetic entry
makes the changeset synthetic (and a second add would reset it). -/
def csAdd (c : CS) (e : LogEntry) : CS :=
  { c with
    synthetic := c.entries.isEmpty && e.synthetic
    entries := c.entries ++ [e]
    date := e.date
    files := c.files ++ [e.file]
    versions := c.versions ++ [(e.rcs, e.revision)] }

/-- `changeset.from_logentry(entry)` (cvsps.py lines 546-558). -/
def fromLogentry (e : LogEntry) : CS :=
  csAdd
    { author := e.author, branch := e.branch, comment := e.comment,
      commitid := e.commitid, date := e.date,
      branchpoints := some e.branchpoints, mergepoint := e.mergepoint,
      entries := [], parents := [], tags := [], synthetic := false,
      id := none, files := [], versions := [] } e

/-- `changeset._can_cover(entry, fuzz)` (cvsps.py lines 591-622). -/
def canCover (c : CS) (e : LogEntry) (fuzz : Int) : Bool :=
  if some e.branchpoints ≠ c.branchpoints then false
  else
    match c.commitid with
    | some cid => e.commitid = some cid
    | none =>
      e.commitid = none && e.author = c.author && e.branch = c.branch &&
      e.comment = c.comment && !(c.files.contains e.file) &&
      (c.date.1 + c.date.2 ≤ e.date.1 + e.date.2) &&
      (e.date.1 + e.date.2 < c.date.1 + c.date.2 + fuzz)

/-- `changeset.from_merge(from_cs, to_cs)` (cvsps.py lines 560-574),
parametrised additionally by the indices `fi`/`ti` of the two parents in the
changeset list (Python appends the objects themselves).  The `%s` formatting
of the source branch uses Python `str`, so a trunk changeset (branch `None`)
renders as the string `"None"`. -/
def pyOptStr : Option String → String
  | none => "None"
  | some s => s

def fromMerge (fromCs : CS) (fi : Nat) (toCs : CS) (ti : Nat) : CS :=
  { author := fromCs.author, branch := toCs.branch,
    comment := "convert-repo: CVS merge from branch " ++ pyOptStr fromCs.branch,
    commitid := none, date := fromCs.date, branchpoints := none,
    mergepoint := none, entries := [], parents := [fi, ti], tags := [],
    synthetic := false, id := none, files := [], versions := [] }

/-- `changeset.is_child(other)` (cvsps.py lines 630-634): some entry of
`self` has its `(rcs, parent)` pair among `other`'s `(rcs, revision)`
pairs. -/
def isChild (l r : CS) : Bool :=
  l.entries.any (fun e => r.versions.contains (e.rcs, e.parent))

/-! ## cvsps.py `createchangeset`: grouping (lines 645-676) -/

/-- Association list for the `mindate` dict (commitid → earliest date). -/
def lookupMD (m : List (String × (Int × Int))) (k : String) :
    Option (Int × Int) :=
  (m.find? (fun kv => kv.1 = k)).map (·.2)

/-- Python tuple comparison of two `(time, tz)` dates, and `min`. -/
def pairLe (a b : Int × Int) : Bool :=
  a.1 < b.1 || (a.1 = b.1 && a.2 ≤ b.2)

def pyMinPair (a b : Int × Int) : Int × Int := if pairLe a b then a else b

/-- The `mindate` loop (cvsps.py lines 646-652): for every entry with a
truthy commitid, record the minimum of its dates. -/
def mindateMap (log : List LogEntry) : List (String × (Int × Int)) :=
  log.foldl
    (fun m e =>
      match e.commitid with
      | some cid =>
        if cid = "" then m
        else
          match lookupMD m cid with
          | none => (cid, e.date) :: m
          | some d => (cid, pyMinPair e.date d) :: m
      | none => m)
    []

/-- The sort key of the grouping sort (cvsps.py lines 655-665):
`(mindate.get(commitid, (-1, 0)), commitid or '', comment, author,
branch or '', date, branchpoints)`.  The `branchpoints` component compares
Python sets; it is reached only when every other component ties and is
embedded as lexicographic comparison of the element lists. -/
def cmpPair (a b : Int × Int) : Ordering :=
  (compare a.1 b.1).then (compare a.2 b.2)

def keyCmp (md : List (String × (Int × Int))) (a b : LogEntry) : Ordering :=
  let mget : Option String → Int × Int := fun cid =>
    match cid with
    | none => (-1, 0)
    | some c => (lookupMD md c).getD (-1, 0)
  (cmpPair (mget a.commitid) (mget b.commitid)).then <|
  (compare (a.commitid.getD "") (b.commitid.getD "")).then <|
  (compare a.comment b.comment).then <|
  (compare a.author b.author).then <|
  (compare (a.branch.getD "") (b.branch.getD "")).then <|
  (cmpPair a.date b.date).then
  (compare a.branchpoints b.branchpoints)

def logKeyLt (md : List (String × (Int × Int))) (a b : LogEntry) : Prop :=
  keyCmp md a b = .lt

instance (md : List (String × (Int × Int))) : DecidableRel (logKeyLt md) :=
  fun a b => by unfold logKeyLt; infer_instance

/-- The grouping loop (cvsps.py lines 667-676): each entry is absorbed into
the current (= most recently founded) changeset when `add_entry` succeeds,
otherwise it founds a new one.  `acc` holds the completed changesets in
order; `cur` is the current one. -/
def groupGo (fuzz : Int) : List LogEntry → Option CS → List CS → List CS
  | [], cur, acc => acc ++ cur.toList
  | e :: rest, none, acc => groupGo fuzz rest (some (fromLogentry e)) acc
  | e :: rest, some c, acc =>
    if canCover c e fuzz then groupGo fuzz rest (some (csAdd c e)) acc
    else groupGo fuzz rest (some (fromLogentry e)) (acc ++ [c])

def groupEntries (fuzz : Int) (log : List LogEntry) : List CS :=
  groupGo fuzz log none []

/-! ## cvsps.py `createchangeset`: sorting (lines 678-723) -/

/-- `os.path.split`: split a path at the last slash into
`(head, tail)`; trailing slashes are stripped from `head` unless it consists
only of slashes. -/
def osPathSplit (p : String) : String × String :=
  let cs := p.toList
  let base := (cs.reverse.takeWhile (fun c => c != '/')).reverse
  let head := cs.take (cs.length - base.length)
  let head := if head ≠ [] ∧ head.all (fun c => c = '/') then head
    else (head.reverse.dropWhile (fun c => c = '/')).reverse
  (String.mk head, String.mk base)

/-- The per-changeset entry sort key
`tuple(enumerate(os.path.split(x.file)))` (cvsps.py line 680) reduces to the
lexicographic `(directory, basename)` pair. -/
def cmpStrPair (a b : String × String) : Ordering :=
  (compare a.1 b.1).then (compare a.2 b.2)

def entryFileLt (a b : LogEntry) : Prop :=
  cmpStrPair (osPathSplit a.file) (osPathSplit b.file) = .lt

instance : DecidableRel entryFileLt := fun a b => by
  unfold entryFileLt; infer_instance

/-- Python `cmp` for `Ordering`-producing comparisons:
`c(x, y) = (x > y) - (x < y)`. -/
def cmpOrd (o : Ordering) : Int :=
  match o with
  | .lt => -1
  | .eq => 0
  | .gt => 1

/-- `cscmp(l, r)` (cvsps.py lines 686-721) without the `odd`-set warning
bookkeeping (which does not influence the resulting order).  The
`len(branchpoints)` comparison is only ever applied to changesets built by
`from_logentry`, whose `branchpoints` is a set (`some _`). -/
def cscmp (l r : CS) : Int :=
  let d := (l.date.1 + l.date.2) - (r.date.1 + r.date.2)
  if d ≠ 0 then d
  else
    let d : Int := if isChild l r then 1 else 0
    let d : Int := if isChild r l then -1 else d
    if d ≠ 0 then d
    else
      let d := cmpOrd (compare l.entries.length r.entries.length)
      if d ≠ 0 then d
      else
        let d := cmpOrd (compare (l.entries.map (·.file))
          (r.entries.map (·.file)))
        if d ≠ 0 then d
        else cmpOrd (compare (l.branchpoints.getD []).length
          (r.branchpoints.getD []).length)

def cscmpLt (l r : CS) : Prop := cscmp l r < 0

instance : DecidableRel cscmpLt := fun a b => by
  unfold cscmpLt; infer_instance

/-! ## cvsps.py `createchangeset`: tag collection (lines 727-739) -/

/-- Build the `globaltags` dict: tag → index of the last changeset one of
whose entries carries the tag (later writes win, as in the Python loop). -/
def gtBuildGo (k : Nat) : List CS → List (String × Nat) → List (String × Nat)
  | [], m => m
  | c :: rest, m =>
    gtBuildGo (k + 1) rest
      (c.entries.foldl (fun m e => e.tags.foldl (fun m t => (t, k) :: m) m) m)

def lookupGT (m : List (String × Nat)) (t : String) : Option Nat :=
  (m.find? (fun kv => kv.1 = t)).map (·.2)

def strLt (a b : String) : Prop := compare a b = .lt

instance : DecidableRel strLt := fun a b => by
  unfold strLt; infer_instance

/-- The second tag pass: each changeset keeps (sorted) exactly those of its
entries' tags for which it is the recorded last carrier. -/
def assignTagsGo (gt : List (String × Nat)) (k : Nat) : List CS → List CS
  | [] => []
  | c :: rest =>
    let tset := (c.entries.foldl (fun acc e => acc ++ e.tags) []).dedup
    { c with tags := (List.insertionSort strLt
        (tset.filter (fun t => lookupGT gt t = some k))) } ::
      assignTagsGo gt (k + 1) rest

def assignTags (cs : List CS) : List CS :=
  assignTagsGo (gtBuildGo 0 cs []) 0 cs

/-! ## cvsps.py `createchangeset`: the parent-graph walk (lines 741-834)

The walk maintains the changeset list (into which merge changesets are
inserted), the `branches` dict (branch → latest index seen), and the loop
counters `i`/`n`.  Parents are stored as indices into the list; every index
recorded in `branches` or appended to a `parents` list is strictly smaller
than the position `i + 1` at which any later insertion happens, so the
indices remain valid for the final (pre-purge) list.

Python errors that the source does not catch are made explicit:
`KeyError` (looking up an unknown branch for a mergepoint), `IndexError`,
`AssertionError` (a synthetic changeset with two parents), `TypeError`
(`x in None` when a merge changeset's `branchpoints` is scanned), and
running out of fuel (which cannot happen when the walk is started with fuel
equal to the list length, since `n - i` decreases by one per iteration). -/
inductive WErr where
  | key
  | index
  | assertFail
  | typeErr
  | fuel
deriving DecidableEq

/-- The `branches` dict: keys are `c.branch` values, so `None` (trunk) is a
legal key.  Insertion shadows; only lookups observe the list. -/
def lookupB (branches : List (Option String × Nat)) (k : Option String) :
    Option Nat :=
  (branches.find? (fun kv => kv.1 = k)).map (·.2)

def insertB (branches : List (Option String × Nat)) (k : Option String)
    (v : Nat) : List (Option String × Nat) :=
  (k, v) :: branches

/-- `b in cs.branchpoints`: membership in a set of strings (a `None` branch
is simply not a member), or `TypeError` when `branchpoints` is `None` (as on
a changeset built by `from_merge`). -/
def bpContains (bps : Option (List String)) (b : Option String) :
    Except WErr Bool :=
  match bps with
  | none => .error .typeErr
  | some l =>
    match b with
    | none => .ok false
    | some s => .ok (l.contains s)

/-- The candidate scan for the first changeset on a new branch (cvsps.py
lines 764-775): walk candidates `0..i-1`; a candidate whose branchpoints
contain the branch is recorded (and overwrites the previous record); a
candidate without the branch stops the scan if something was recorded, and
is skipped otherwise. -/
def scanGo (all : List CS) (b : Option String) :
    List Nat → Option Nat → Except WErr (Option Nat)
  | [], p => .ok p
  | cand :: rest, p =>
    match all[cand]? with
    | none => .error .index
    | some cs =>
      match bpContains cs.branchpoints b with
      | .error e => .error e
      | .ok true => scanGo all b rest (some cand)
      | .ok false =>
        match p with
        | some _ => .ok p
        | none => scanGo all b rest none

def scanCandidates (all : List CS) (b : Option String) (i : Nat) :
    Except WErr (Option Nat) :=
  scanGo all b (List.range i) none

/-- The synthetic-ancestor walk (cvsps.py lines 780-788): while the chosen
parent is synthetic, assert it has at most one parent and move to it;
the result is `none` when the chain ends at a parentless synthetic
changeset.  Parent indices strictly decrease along the chain, so fuel
`all.length + 1` always suffices. -/
def resolveSynth (all : List CS) : Nat → Nat → Except WErr (Option Nat)
  | 0, _ => .error .fuel
  | fuel + 1, p =>
    match all[p]? with
    | none => .error .index
    | some cs =>
      if cs.synthetic then
        if cs.parents.length ≤ 1 then
          match cs.parents with
          | [] => .ok none
          | q :: _ => resolveSynth all fuel q
        else .error .assertFail
      else .ok (some p)

/-- `if p is not None: ... while p.synthetic ...; if p is not None:
c.parents.append(p)` — the synthetic-ancestor walk applied to a chosen
primary-parent index, then the append. -/
def parentResolve (all : List CS) (c : CS) (pj : Nat) : Except WErr CS :=
  match resolveSynth all (all.length + 1) pj with
  | .error e => .error e
  | .ok none => .ok c
  | .ok (some j) => .ok { c with parents := c.parents ++ [j] }

/-- The primary-parent phase (cvsps.py lines 761-791) applied to the current
changeset `c` at index `i`. -/
def parentPhase (all : List CS) (branches : List (Option String × Nat))
    (i : Nat) (c : CS) : Except WErr CS :=
  match lookupB branches c.branch with
  | some j => parentResolve all c j
  | none =>
    match scanCandidates all c.branch i with
    | .error e => .error e
    | .ok none => .ok c
    | .ok (some pj) => parentResolve all c pj

/-- The mergepoint phase (cvsps.py lines 793-796): a truthy mergepoint is
normalised (`HEAD` becomes `None`, mutating the changeset) and the latest
changeset on that branch is appended as a second parent; an unknown branch
is an uncaught `KeyError`. -/
def mpAppend (all : List CS) (branches : List (Option String × Nat))
    (c : CS) (key : Option String) : Except WErr CS :=
  match lookupB branches key with
  | none => .error .key
  | some j =>
    match all[j]? with
    | none => .error .index
    | some _ => .ok { c with parents := c.parents ++ [j] }

def mergepointPhase (all : List CS) (branches : List (Option String × Nat))
    (c : CS) : Except WErr CS :=
  match c.mergepoint with
  | none => .ok c
  | some mp =>
    if mp = "" then .ok c
    else if mp = "HEAD" then
      mpAppend all branches { c with mergepoint := none } none
    else mpAppend all branches c (some mp)

/-! The default merge regexes.  `createchangeset` is embedded with its
default patterns `\x7b\x7bmergefrombranch ([-\w]+)\x7d\x7d` and
`\x7b\x7bmergetobranch ([-\w]+)\x7d\x7d` compiled in (its callers in this
repository pass `None`).  `re.search` finds the leftmost position at which
the whole pattern matches; since `\x7d` is not a word character, the greedy
`[-\w]+` run never backtracks usefully, so a match at a position is: the
literal tag, a nonempty maximal run of word characters or hyphens, then two
closing braces.  `\w` is embedded as ASCII alphanumerics plus underscore. -/

def isWordChar (c : Char) : Bool := c = '-' || c.isAlphanum || c = '_'

def takeWord (l : List Char) : List Char × List Char :=
  (l.takeWhile isWordChar, l.dropWhile isWordChar)

/-- `re.search` for `TAG([-\w]+)\x7d\x7d` (where `TAG` is the literal prefix
including the two opening braces and the space): scan positions left to
right; at each position require the literal, a nonempty word-char run, and
the two closing braces; return the captured group. -/
def searchMergeTag (tag : List Char) : List Char → Option String
  | [] => none
  | s@(_ :: rest) =>
    if tag.isPrefixOf s then
      let after := s.drop tag.length
      let w := takeWord after
      if w.1 ≠ [] ∧ ('\x7d' :: '\x7d' :: []).isPrefixOf w.2 then
        some (String.mk w.1)
      else searchMergeTag tag rest
    else searchMergeTag tag rest

def mergefromSearch (comment : String) : Option String :=
  searchMergeTag "\x7b\x7bmergefrombranch ".toList comment.toList

def mergetoSearch (comment : String) : Option String :=
  searchMergeTag "\x7b\x7bmergetobranch ".toList comment.toList

/-- `if m == 'HEAD': m = None` — the normalisation both merge phases apply
to the captured branch name. -/
def headNone (g : String) : Option String :=
  if g = "HEAD" then none else some g

/-- The mergefrom phase (cvsps.py lines 798-811): a matched branch that is
known, different from the changeset's own branch, and not synthetic is
appended as a merge parent; an unknown branch only warns. -/
def mergefromPhase (all : List CS) (branches : List (Option String × Nat))
    (c : CS) : Except WErr CS :=
  match mergefromSearch c.comment with
  | none => .ok c
  | some g =>
    match lookupB branches (headNone g) with
    | none => .ok c
    | some j =>
      match all[j]? with
      | none => .error .index
      | some cand =>
        if c.branch ≠ headNone g ∧ ¬cand.synthetic then
          .ok { c with parents := c.parents ++ [j] }
        else .ok c

/-- `list.insert(n, a)`: insertion past the end appends, as in Python. -/
def insertAt : List CS → Nat → CS → List CS
  | l, 0, a => a :: l
  | [], _ + 1, a => [a]
  | x :: xs, n + 1, a => x :: insertAt xs n a

/-- The mergeto phase together with the end-of-iteration bookkeeping
(cvsps.py lines 813-834), applied after the updated changeset `c` has been
written back at index `i` of `all`.  When a merge changeset is inserted the
loop `continue`s: `branches[m] = i + 1` is recorded, the counters become
`i + 2` / `n + 1`, and — notably — `branches[c.branch] = i` is NOT
executed.  In every other case `branches[c.branch] = i` is recorded and the
counters become `i + 1` / `n`. -/
def mergetoRecordStep (all : List CS) (branches : List (Option String × Nat))
    (i n : Nat) (c : CS) :
    List CS × List (Option String × Nat) × Nat × Nat :=
  match mergetoSearch c.comment with
  | none => (all, insertB branches c.branch i, i + 1, n)
  | some g =>
    match lookupB branches (headNone g) with
    | none => (all, insertB branches c.branch i, i + 1, n)
    | some j =>
      if c.branch ≠ headNone g then
        (insertAt all (i + 1) (fromMerge c i (all.getD j default) j),
         insertB branches (headNone g) (i + 1), i + 2, n + 1)
      else (all, insertB branches c.branch i, i + 1, n)

/-- One iteration of the walk loop body for the changeset at index `i`. -/
def walkStep (all : List CS) (branches : List (Option String × Nat))
    (i n : Nat) :
    Except WErr (List CS × List (Option String × Nat) × Nat × Nat) :=
  match all[i]? with
  | none => .error .index
  | some c =>
    match parentPhase all branches i c with
    | .error e => .error e
    | .ok c1 =>
      match mergepointPhase all branches c1 with
      | .error e => .error e
      | .ok c2 =>
        match mergefromPhase all branches c2 with
        | .error e => .error e
        | .ok c3 => .ok (mergetoRecordStep (all.set i c3) branches i n c3)

/-- The `while i < n` loop (cvsps.py lines 757-834), fuel-indexed; `n - i`
decreases by exactly one per iteration, so fuel `n` suffices from the
start. -/
def walkAux : Nat → List CS → List (Option String × Nat) → Nat → Nat →
    Except WErr (List CS × List (Option String × Nat))
  | 0, all, branches, i, n =>
    if i < n then .error .fuel else .ok (all, branches)
  | fuel + 1, all, branches, i, n =>
    if i < n then
      match walkStep all branches i n with
      | .error e => .error e
      | .ok (all', branches', i', n') => walkAux fuel all' branches' i' n'
    else .ok (all, branches)

/-! ## cvsps.py `createchangeset`: the full pipeline (lines 640-860) -/

/-- The phases before the walk: the grouping sort, the grouping loop, the
per-changeset entry sort by file path, the `cscmp` sort, and tag
collection. -/
def prepChangesets (log : List LogEntry) (fuzz : Int) : List CS :=
  let md := mindateMap log
  let sortedLog := List.insertionSort (logKeyLt md) log
  let grouped := groupEntries fuzz sortedLog
  let grouped := grouped.map
    (fun c => { c with entries := List.insertionSort entryFileLt c.entries })
  let sorted := List.insertionSort cscmpLt grouped
  assignTags sorted

/-- The walk, returning the final (pre-purge) changeset list and the final
`branches` dict. -/
def runWalk (log : List LogEntry) (fuzz : Int) :
    Except WErr (List CS × List (Option String × Nat)) :=
  let cs := prepChangesets log fuzz
  walkAux cs.length cs [] 0 cs.length

/-- The numbering pass (cvsps.py lines 847-848): `id = index + 1`. -/
def numberGo (k : Nat) : List CS → List CS
  | [] => []
  | c :: rest => { c with id := some (k + 1) } :: numberGo (k + 1) rest

/-- The full `createchangeset` with its default merge patterns, returning
both the pre-purge list (needed to interpret parent indices, which is what
the surviving Python objects still reference) and the purged, numbered
output list. -/
def runPipeline (log : List LogEntry) (fuzz : Int) :
    Except WErr (List CS × List CS) :=
  match runWalk log fuzz with
  | .error e => .error e
  | .ok (all, _) =>
    .ok (all, numberGo 0 (all.filter (fun c => !c.synthetic)))

/-- The output of `createchangeset(ui, log, fuzz)` (cvsps.py line 860). -/
def createchangeset (log : List LogEntry) (fuzz : Int) :
    Except WErr (List CS) :=
  match runPipeline log fuzz with
  | .error e => .error e
  | .ok (_, out) => .ok out

/-! ## Concrete logs used to settle the claims

`mkEntry` builds a log entry the way `createlog` would emit it: trunk entry,
alive, no commitid, no mergepoint, empty branchpoint set, parent already
resolved.  The individual logs override fields as needed. -/
def mkEntry (rcs file : String) (rev : List Int) (date : Int × Int)
    (author comment : String) : LogEntry :=
  { rcs := rcs, file := file, revision := rev, date := date, author := author,
    dead := false, comment := comment, commitid := none, mergepoint := none,
    branchpoints := [], branches := [], tags := [], branch := none,
    parent := [], lines := none, synthetic := false }

/-- A synthetic dead trunk revision 1.1 (as `createlog` marks it), followed
by a real branch revision whose `mergepoint` is `HEAD`: the synthetic
changeset is the latest one recorded for trunk when the mergepoint parent is
appended. -/
def cexLogC1 : List LogEntry :=
  [ { mkEntry "a,v" "a" [1, 1] (100, 0) "alice"
        "file a was added on branch BR" with dead := true, synthetic := true },
    { mkEntry "b,v" "b" [1, 1, 2, 1] (200, 0) "bob" "fix" with
        branch := some "BR", mergepoint := some "HEAD", parent := [1, 1] } ]

/-- Three same-comment, same-author trunk entries without commitids at
seconds 0, 50 and 100: with `fuzz = 60` each consecutive step is inside the
window, so all three land in one changeset whose total spread is 100. -/
def cexLogC2 : List LogEntry :=
  [ mkEntry "f1,v" "f1" [1, 1] (0, 0) "a" "m",
    mkEntry "f2,v" "f2" [1, 1] (50, 0) "a" "m",
    mkEntry "f3,v" "f3" [1, 1] (100, 0) "a" "m" ]

/-- Two revisions of the SAME file carrying the same non-empty commitid:
the commitid absorption rule never consults `_files`. -/
def cexLogC3 : List LogEntry :=
  [ { mkEntry "f,v" "f" [1, 1] (10, 0) "a" "m" with commitid := some "X" },
    { mkEntry "f,v" "f" [1, 2] (10, 0) "a" "m" with commitid := some "X" } ]

/-- A changeset on branch BR followed by a trunk changeset whose comment
carries the `mergetobranch BR` token: the mergeto insertion fires with the
merging changeset on trunk. -/
def cexLogC4 : List LogEntry :=
  [ { mkEntry "x,v" "x" [1, 1, 2, 1] (100, 0) "u" "add" with
        branch := some "BR", parent := [1, 1] },
    mkEntry "y,v" "y" [1, 1] (200, 0) "v"
      "\x7b\x7bmergetobranch BR\x7d\x7d" ]

/-- Two trunk revisions `1.1` and `2.1` of the same file: the second has a
trunk predecessor but a fresh branch prefix `(2,)`. -/
def cexLogC7 : List LogEntry :=
  [ mkEntry "a,v" "a" [1, 1] (0, 0) "u" "m",
    mkEntry "a,v" "a" [2, 1] (10, 0) "u" "m2" ]

/-! ## Decidable statements of the claims at a given input -/

/-- Claim C1 at one input: every output changeset is non-synthetic and none
of its parents (as indices into the pre-purge list) is synthetic.  An
erroring run satisfies the claim vacuously. -/
def claimC1Check (log : List LogEntry) (fuzz : Int) : Bool :=
  match runPipeline log fuzz with
  | .error _ => true
  | .ok (pre, out) =>
    out.all fun c =>
      !c.synthetic && c.parents.all fun j =>
        match pre[j]? with
        | some cs => !cs.synthetic
        | none => true

def dateSum (e : LogEntry) : Int := e.date.1 + e.date.2

/-- Claim C2 at one input: in every output changeset without a commitid the
spread between the largest and smallest entry date (as `unixtime + tz`) is
strictly below `fuzz`. -/
def claimC2Check (log : List LogEntry) (fuzz : Int) : Bool :=
  match createchangeset log fuzz with
  | .error _ => true
  | .ok out =>
    out.all fun c =>
      c.commitid ≠ none ||
        (let sorted := List.insertionSort (· ≤ ·) (c.entries.map dateSum)
         match sorted.head?, sorted.getLast? with
         | some mn, some mx => decide (mx - mn < fuzz)
         | _, _ => true)

/-- Claim C3 at one input: no output changeset mentions the same file path
twice. -/
def claimC3Check (log : List LogEntry) (fuzz : Int) : Bool :=
  match createchangeset log fuzz with
  | .error _ => true
  | .ok out => out.all fun c => decide (c.entries.map (·.file)).Nodup

/-- Claim C4 at one input on which the mergeto insertion fires with the
merging changeset on trunk: the claim asserts the inserted two-parent merge
changeset renders the source branch as `HEAD` in its comment. -/
def claimC4Check (log : List LogEntry) (fuzz : Int) : Bool :=
  match createchangeset log fuzz with
  | .error _ => true
  | .ok out =>
    out.any fun c =>
      c.parents.length = 2 &&
        c.comment = "convert-repo: CVS merge from branch HEAD"

/-- What the code actually produces on such an input: an inserted two-parent
merge changeset whose comment renders the trunk source branch as `None`. -/
def mergeNoneCheck (log : List LogEntry) (fuzz : Int) : Bool :=
  match createchangeset log fuzz with
  | .error _ => false
  | .ok out =>
    out.any fun c =>
      c.parents.length = 2 &&
        c.comment = "convert-repo: CVS merge from branch None"

/-- Claim C7 at one input: after the parent pass, the parent is absent (the
empty tuple) exactly for a length-2 revision that is the file's very first
trunk revision (no earlier length-2 revision of the same rcs file). -/
def claimC7Check (log : List LogEntry) : Bool :=
  let out := resolveParents log
  (List.range out.length).all fun i =>
    match out[i]? with
    | none => true
    | some e =>
      decide ((e.parent = []) ↔ (e.revision.length = 2 ∧
        (out.take i).filter
          (fun e2 => e2.rcs = e.rcs ∧ e2.revision.length = 2) = []))

/-- Claim C8 at the mergeto input: the trunk changeset is processed at index
1, so the claim asserts the final branch map records trunk (`None`) ↦ 1. -/
def claimC8Check (log : List LogEntry) (fuzz : Int) : Bool :=
  match runWalk log fuzz with
  | .error _ => true
  | .ok (_, br) => lookupB br none = some 1

/-! ## Vocabulary for the amended claims -/

/-- The guarantee the fuzz window actually gives: consecutive date sums (in
nondecreasing order) advance by less than `fuzz`. -/
def gapRel (fuzz : Int) (a b : Int) : Prop := a ≤ b ∧ b < a + fuzz

/-- The date sums of a changeset's entries, in nondecreasing order. -/
def sortedSums (c : CS) : List Int :=
  List.insertionSort (· ≤ ·) (c.entries.map dateSum)

/-- The key under which the parent pass records an entry:
`(rcs, revision[:-1])`. -/
def revPrefixKey (e : LogEntry) : String × List Int :=
  (e.rcs, e.revision.take (e.revision.length - 1))

/-- The state of the `versions` dict after processing the entries `pre`. -/
def versionsAfter (versions : List ((String × List Int) × List Int))
    (pre : List LogEntry) : List ((String × List Int) × List Int) :=
  pre.foldl (fun v e2 => insertV v (revPrefixKey e2) e2.revision) versions

/-- The latest revision before position `i` of the (sorted) log that belongs
to the same rcs file and shares the branch prefix `revision[:-1]`; this is
what the `versions` dict holds under that key when entry `i` is processed
(empty seed). -/
def priorMatch (log : List LogEntry) (i : Nat) (e : LogEntry) :
    Option (List Int) :=
  (((log.take i).filter fun e2 =>
      revPrefixKey e2 = revPrefixKey e).getLast?).map (·.revision)

/-- Invariant maintained by the grouping loop for every changeset it
builds: `_files` mirrors the entries' files, the changeset date is the last
entry's date, and — when the changeset has no commitid — the files are
distinct and the date sums (in absorption order) form a nondecreasing chain
whose steps stay below `fuzz`. -/
def groupInv (fuzz : Int) (c : CS) : Prop :=
  c.files = c.entries.map (·.file) ∧
  (c.entries.map dateSum).getLast? = some (c.date.1 + c.date.2) ∧
  (c.commitid = none →
    (c.entries.map (·.file)).Nodup ∧
    List.Chain' (gapRel fuzz) (c.entries.map dateSum))

/-- Unwrap a successful `createchangeset` run (used by concrete witnesses;
every run it is applied to is checked to be `.ok` by `rfl`). -/
def okOr (r : Except WErr (List CS)) : List CS :=
  match r with
  | .ok l => l
  | .error _ => []

def witOutC1 : List CS := okOr (createchangeset cexLogC2 60)

/-! # Theorems

Helper lemmas come first; each claim is settled by its named theorem(s)
below. -/

/-- C1, counterexample: on `cexLogC1` the claim fails — the surviving
changeset's parent list contains the (purged) synthetic trunk changeset,
appended by the mergepoint step, which never checks `synthetic`. -/
theorem claimC1_counterexample : claimC1Check cexLogC1 60 = false := by rfl

/-- C2, counterexample: on `cexLogC2` (dates 0/50/100, fuzz 60) all three
entries are absorbed into one commitid-less changeset because the fuzz
window slides with the changeset date, so `max - min = 100 ≥ 60`. -/
theorem claimC2_counterexample : claimC2Check cexLogC2 60 = false := by rfl

/-- C3, counterexample: on `cexLogC3` two revisions of the same file share
commitid `X`; the commitid absorption rule in `_can_cover` never consults
`_files`, so one changeset mentions the file twice. -/
theorem claimC3_counterexample : claimC3Check cexLogC3 60 = false := by rfl

/-- C4, counterexample: on `cexLogC4` the mergeto insertion fires with the
merging changeset on trunk, and the inserted changeset's comment is
`convert-repo: CVS merge from branch None` (Python `str(None)`), not
`... HEAD` as claimed. -/
theorem claimC4_counterexample :
    claimC4Check cexLogC4 60 = false ∧ mergeNoneCheck cexLogC4 60 = true :=
  ⟨by rfl, by rfl⟩

/-- C7, counterexample: on `cexLogC7` (trunk revisions 1.1 and 2.1 of one
file) the parent of 2.1 is also the empty tuple (its branch prefix `(2,)`
is fresh), although 2.1 is not the file's very first trunk revision. -/
theorem claimC7_counterexample : claimC7Check cexLogC7 = false := by rfl

/-- C8, counterexample: on `cexLogC4` the trunk changeset is processed at
index 1 and its mergeto insertion squeezes past the
`branches[c.branch] = i` statement via `continue`, so the final branch map
has no entry for trunk at all. -/
theorem claimC8_counterexample : claimC8Check cexLogC4 60 = false := by rfl

/-- C5, counterexample: for branch map `BR ↦ 1.1.0.2` and mergepoint
revision `1.1.2.1` the code looks up `1.1.0.2` (second-to-last component)
and finds `BR`, while the claim's formula `r[:-2] + [0, last]` builds
`1.1.0.1`, which matches no branch (the assert would fail). -/
theorem claimC5_counterexample :
    mergepointBranch [("BR", "1.1.0.2")] "1.1.2.1" = .ok (some "BR") ∧
    mergepointBranchClaim [("BR", "1.1.0.2")] "1.1.2.1" = .error .assertFail ∧
    (Except.ok (some "BR") : Except MPErr (Option String)) ≠
      .error .assertFail :=
  ⟨by rfl, by rfl, by simp⟩

/-- C6: the `cvs server:`/`cvs log:` error pattern `re_02` ends in `\n$`,
but every line is stripped of its trailing newline before matching, so such
lines never raise `logerror` (first conjunct) — they would only match in
unstripped form (second conjunct).  The `re_01` and `re_03` patterns do
raise on stripped lines (remaining conjuncts). -/
theorem state0_cvs_server_not_raised :
    state0Error (stripLine "cvs server: cannot access repository\n") = none ∧
    state0Error "cvs server: cannot access repository\n" =
      some "cannot access repository" ∧
    state0Error (stripLine "cvs [log aborted]: boom\n") = some "boom" ∧
    state0Error (stripLine "Cannot access /repo/CVSROOT\n") =
      some "Cannot access /repo/CVSROOT" ∧
    state0Error
        (stripLine "can\x27t create temporary directory /tmp/cvs\n") =
      some "can\x27t create temporary directory /tmp/cvs" :=
  ⟨by rfl, by rfl, by rfl, by rfl, by rfl⟩

/-- C9: for a nonempty date string, `parsedate` raises `Abort` exactly when
neither the `"unixtime offset"` form nor any of the accepted formats parses
it, or the parsed timestamp exceeds signed 32 bits, or the parsed offset
lies outside `[-50400, 43200]`; otherwise the returned pair lies within
those ranges. -/
theorem parsedate_abort_conditions (sd : String → String → Option (Int × Int))
    (s : String) (hs : s ≠ "") :
    ((∃ k, parsedate sd [] (.str s) = .abort k) ↔
      ((intPair s.trim = none ∧
          tryFormats sd s.trim defaultdateformats = none) ∨
       (∃ w o, (intPair s.trim = some (w, o) ∨
            (intPair s.trim = none ∧
              tryFormats sd s.trim defaultdateformats = some (w, o))) ∧
          (w < -2147483648 ∨ w > 2147483647 ∨ o < -50400 ∨ o > 43200))))
    ∧ (∀ w o, parsedate sd [] (.str s) = .ok (w, o) →
        -2147483648 ≤ w ∧ w ≤ 2147483647 ∧ -50400 ≤ o ∧ o ≤ 43200) := by
  have hpd : parsedate sd [] (.str s) =
      match intPair s.trim with
      | some (w, o) => checkRanges w o
      | none =>
        match tryFormats sd s.trim defaultdateformats with
        | some (w, o) => checkRanges w o
        | none => .abort .invalidDate := by
    simp [parsedate, pyTruthyDate, hs]
  rw [hpd]
  cases h1 : intPair s.trim with
  | some p =>
    obtain ⟨w, o⟩ := p
    dsimp only
    unfold checkRanges
    constructor
    · constructor
      · intro hab
        refine Or.inr ⟨w, o, Or.inl rfl, ?_⟩
        by_contra hc
        push_neg at hc
        rw [if_neg (by omega), if_neg (by omega)] at hab
        obtain ⟨k, hk⟩ := hab
        exact PDResult.noConfusion hk
      · rintro (⟨hn, _⟩ | ⟨w', o', hwo, hr⟩)
        · exact Option.noConfusion hn
        · rcases hwo with heq | ⟨hn, _⟩
          · rw [Option.some_inj, Prod.mk.injEq] at heq
            obtain ⟨rfl, rfl⟩ := heq
            split_ifs with hA hB
            · exact ⟨_, rfl⟩
            · exact ⟨_, rfl⟩
            · rcases hr with h | h | h | h <;> [omega; omega; omega; omega]
          · exact Option.noConfusion hn
    · intro w' o' hok
      split_ifs at hok with hA hB
      rw [PDResult.ok.injEq, Prod.mk.injEq] at hok
      obtain ⟨rfl, rfl⟩ := hok
      omega
  | none =>
    cases h2 : tryFormats sd s.trim defaultdateformats with
    | some p =>
      obtain ⟨w, o⟩ := p
      dsimp only
      unfold checkRanges
      constructor
      · constructor
        · intro hab
          refine Or.inr ⟨w, o, Or.inr ⟨rfl, rfl⟩, ?_⟩
          by_contra hc
          push_neg at hc
          rw [if_neg (by omega), if_neg (by omega)] at hab
          obtain ⟨k, hk⟩ := hab
          exact PDResult.noConfusion hk
        · rintro (⟨_, hn⟩ | ⟨w', o', hwo, hr⟩)
          · exact Option.noConfusion hn
          · rcases hwo with heq | ⟨_, heq⟩
            · exact Option.noConfusion heq
            · rw [Option.some_inj, Prod.mk.injEq] at heq
              obtain ⟨rfl, rfl⟩ := heq
              split_ifs with hA hB
              · exact ⟨_, rfl⟩
              · exact ⟨_, rfl⟩
              · rcases hr with h | h | h | h <;> [omega; omega; omega; omega]
      · intro w' o' hok
        split_ifs at hok with hA hB
        rw [PDResult.ok.injEq, Prod.mk.injEq] at hok
        obtain ⟨rfl, rfl⟩ := hok
        omega
    | none =>
      refine ⟨⟨fun _ => Or.inl ⟨rfl, rfl⟩, fun _ => ⟨.invalidDate, rfl⟩⟩, ?_⟩
      intro w' o' hok
      exact PDResult.noConfusion hok

/-- C10: `parsedate` returns any 2-tuple unchanged and `(0, 0)` for empty
input, bypassing the range validation entirely, and is idempotent: feeding
a successful result back in returns it unchanged. -/
theorem parsedate_tuple_identity (sd : String → String → Option (Int × Int))
    (formats : List String) :
    (∀ a b : Int, parsedate sd formats (.tup [a, b]) = .ok (a, b))
    ∧ parsedate sd formats (.str "") = .ok (0, 0)
    ∧ parsedate sd formats (.tup []) = .ok (0, 0)
    ∧ (∀ x w o, parsedate sd formats x = .ok (w, o) →
        parsedate sd formats (.tup [w, o]) = .ok (w, o)) := by
  refine ⟨fun a b => by simp [parsedate, pyTruthyDate], by rfl, by rfl, ?_⟩
  intro x w o _
  simp [parsedate, pyTruthyDate]

/-- Witness for `parsedate_abort_conditions`: the claim instantiated at the
always-failing `strdate` and the unparseable date string `"x"`, where the
hypotheses are discharged on concrete input. -/
theorem parsedate_abort_conditions_witness :
    ((∃ k, parsedate (fun _ _ => none) [] (.str "x") = .abort k) ↔
      ((intPair ("x" : String).trim = none ∧
          tryFormats (fun _ _ => none) ("x" : String).trim
            defaultdateformats = none) ∨
       (∃ w o, (intPair ("x" : String).trim = some (w, o) ∨
            (intPair ("x" : String).trim = none ∧
              tryFormats (fun _ _ => none) ("x" : String).trim
                defaultdateformats = some (w, o))) ∧
          (w < -2147483648 ∨ w > 2147483647 ∨ o < -50400 ∨ o > 43200))))
    ∧ (∀ w o, parsedate (fun _ _ => none) [] (.str "x") = .ok (w, o) →
        -2147483648 ≤ w ∧ w ≤ 2147483647 ∧ -50400 ≤ o ∧ o ≤ 43200) :=
  parsedate_abort_conditions (fun _ _ => none) "x" (by decide)

/-- Witness for `parsedate_tuple_identity`: an out-of-range tuple is
returned unchanged (validation bypassed), and idempotence applied to the
empty-string run. -/
theorem parsedate_tuple_identity_witness :
    parsedate (fun _ _ => none) [] (.tup [2147483648, 99999]) =
      .ok (2147483648, 99999) ∧
    parsedate (fun _ _ => none) [] (.tup [0, 0]) = .ok (0, 0) :=
  ⟨(parsedate_tuple_identity (fun _ _ => none) []).1 2147483648 99999,
   (parsedate_tuple_identity (fun _ _ => none) []).2.2.2 (.str "") 0 0
     (parsedate_tuple_identity (fun _ _ => none) []).2.1⟩

theorem take_sub_two (l : List String) :
    l.take (l.length - 2) = l.dropLast.dropLast := by
  rw [List.dropLast_eq_take, List.dropLast_eq_take, List.length_take,
    List.take_take]
  congr 1
  omega

theorem getD_sub_two (l : List String) (h : 3 ≤ l.length) :
    l.getD (l.length - 2) "" = l.dropLast.getLastD "" := by
  rw [List.getLastD_eq_getLast?, List.getLast?_eq_getElem?,
    List.getD_eq_getElem?_getD]
  rw [List.getElem?_dropLast, List.length_dropLast]
  rw [if_pos (by omega : l.length - 1 - 1 < l.length - 1)]
  congr 1

/-- C5, amended: the mergepoint translation maps a two-component revision to
`HEAD` and otherwise looks up the revision rebuilt from all but the last two
components, a zero, and the SECOND-TO-LAST component. -/
theorem mergepointBranch_uses_penultimate (bm : List (String × String))
    (r : String) :
    mergepointBranch bm r = mergepointBranchAmended bm r := by
  simp only [mergepointBranch, mergepointBranchAmended]
  split
  · rfl
  · split
    · rfl
    · rename_i h2 hlt
      have h3 : 3 ≤ (splitDots r).length := by omega
      rw [take_sub_two, getD_sub_two _ h3]

theorem numberGo_synthetic : ∀ (k : Nat) (l : List CS) (c : CS),
    c ∈ numberGo k l → ∃ c₀ ∈ l, c.synthetic = c₀.synthetic := by
  intro k l
  induction l generalizing k with
  | nil => intro c h; exact absurd h (by simp [numberGo])
  | cons x xs ih =>
    intro c h
    rw [numberGo] at h
    rcases List.mem_cons.mp h with rfl | h
    · exact ⟨x, List.mem_cons_self .., rfl⟩
    · obtain ⟨c₀, hc₀, he⟩ := ih (k + 1) c h
      exact ⟨c₀, List.mem_cons_of_mem _ hc₀, he⟩

theorem resolveSynth_not_synthetic : ∀ (all : List CS) (fuel p j : Nat),
    resolveSynth all fuel p = .ok (some j) →
      ∃ cs, all[j]? = some cs ∧ cs.synthetic = false := by
  intro all fuel
  induction fuel with
  | zero => intro p j h; exact absurd h (by simp [resolveSynth])
  | succ n ih =>
    intro p j h
    rw [resolveSynth] at h
    cases hp : all[p]? with
    | none => rw [hp] at h; exact absurd h (by simp)
    | some cs =>
      rw [hp] at h
      dsimp only at h
      by_cases hsyn : cs.synthetic
      · rw [if_pos hsyn] at h
        by_cases hlen : cs.parents.length ≤ 1
        · rw [if_pos hlen] at h
          cases hps : cs.parents with
          | nil => rw [hps] at h; exact absurd h (by simp)
          | cons q rest => rw [hps] at h; exact ih q j h
        · rw [if_neg hlen] at h; exact absurd h (by simp)
      · rw [if_neg hsyn] at h
        rw [Except.ok.injEq, Option.some_inj] at h
        exact ⟨cs, h ▸ hp, Bool.of_not_eq_true hsyn⟩

/-- C1, amended: after `createchangeset` no changeset in the output list is
synthetic, and the primary-parent selection (whose synthetic-ancestor walk
is `resolveSynth`) never yields a synthetic parent; the mergepoint and
merge-insertion parents carry no such guarantee (see the counterexample). -/
theorem createchangeset_no_synthetic_survivors :
    (∀ (log : List LogEntry) (fuzz : Int) (out : List CS),
        createchangeset log fuzz = .ok out → ∀ c ∈ out, c.synthetic = false)
    ∧ (∀ (all : List CS) (fuel p j : Nat),
        resolveSynth all fuel p = .ok (some j) →
          ∃ cs, all[j]? = some cs ∧ cs.synthetic = false) := by
  constructor
  · intro log fuzz out hok c hc
    unfold createchangeset at hok
    cases hrp : runPipeline log fuzz with
    | error e => rw [hrp] at hok; exact absurd hok (by simp)
    | ok pr =>
      obtain ⟨all, out'⟩ := pr
      rw [hrp] at hok
      unfold runPipeline at hrp
      cases hw : runWalk log fuzz with
      | error e => rw [hw] at hrp; exact absurd hrp (by simp)
      | ok w =>
        obtain ⟨wall, wbr⟩ := w
        rw [hw] at hrp
        rw [Except.ok.injEq, Prod.mk.injEq] at hrp
        obtain ⟨rfl, rfl⟩ := hrp
        rw [Except.ok.injEq] at hok
        subst hok
        obtain ⟨c₀, hc₀, he⟩ := numberGo_synthetic 0 _ c hc
        rw [List.mem_filter] at hc₀
        rw [he]
        exact Bool.not_eq_true' .. |>.mp hc₀.2
  · exact resolveSynth_not_synthetic

/-- Witness for `createchangeset_no_synthetic_survivors`: the run on
`cexLogC2` and a one-element `resolveSynth` chain, hypotheses discharged by
evaluation. -/
theorem createchangeset_no_synthetic_survivors_witness :
    (∀ c ∈ witOutC1, c.synthetic = false) ∧
    (∃ cs, [fromLogentry (mkEntry "w,v" "w" [1, 1] (5, 0) "w" "wm")][0]? =
        some cs ∧ cs.synthetic = false) :=
  ⟨createchangeset_no_synthetic_survivors.1 cexLogC2 60 witOutC1 (by rfl),
   createchangeset_no_synthetic_survivors.2
     [fromLogentry (mkEntry "w,v" "w" [1, 1] (5, 0) "w" "wm")] 1 0 0 (by rfl)⟩

theorem lookupB_insertB_ne (br : List (Option String × Nat))
    (k k' : Option String) (v : Nat) (h : k' ≠ k) :
    lookupB (insertB br k v) k' = lookupB br k' := by
  unfold lookupB insertB
  rw [List.find?_cons_of_neg]
  simp [Ne.symm h]

theorem mergetoRecordStep_record (all : List CS)
    (branches : List (Option String × Nat)) (i n : Nat) (c : CS)
    (hcase : mergetoSearch c.comment = none ∨
      (∃ g, mergetoSearch c.comment = some g ∧
        lookupB branches (headNone g) = none) ∨
      (∃ g, mergetoSearch c.comment = some g ∧ c.branch = headNone g)) :
    mergetoRecordStep all branches i n c =
      (all, insertB branches c.branch i, i + 1, n) := by
  unfold mergetoRecordStep
  rcases hcase with hnone | ⟨g, hg, hmiss⟩ | ⟨g, hg, hself⟩
  · rw [hnone]
  · rw [hg]
    dsimp only
    rw [hmiss]
  · rw [hg]
    dsimp only
    cases hlk : lookupB branches (headNone g) with
    | none => rfl
    | some j =>
      dsimp only
      rw [if_neg (by simp [hself])]

theorem mergetoRecordStep_insert (all : List CS)
    (branches : List (Option String × Nat)) (i n : Nat) (c : CS)
    (g : String) (j : Nat) (hg : mergetoSearch c.comment = some g)
    (hlk : lookupB branches (headNone g) = some j)
    (hne : c.branch ≠ headNone g) :
    mergetoRecordStep all branches i n c =
      (insertAt all (i + 1) (fromMerge c i (all.getD j default) j),
       insertB branches (headNone g) (i + 1), i + 2, n + 1) := by
  unfold mergetoRecordStep
  rw [hg]
  dsimp only
  rw [hlk]
  dsimp only
  rw [if_pos hne]

/-- C8, amended: the walk records `branch_map[c.branch] = i` at the end of
every iteration EXCEPT when the mergeto insertion fires; then the loop
continues with `branch_map[target] = i + 1` recorded and `c.branch`'s entry
untouched. -/
theorem mergeto_branch_recording :
    (∀ (all : List CS) (branches : List (Option String × Nat)) (i n : Nat)
        (c : CS),
        (mergetoSearch c.comment = none ∨
         (∃ g, mergetoSearch c.comment = some g ∧
            lookupB branches (headNone g) = none) ∨
         (∃ g, mergetoSearch c.comment = some g ∧
            c.branch = headNone g)) →
        mergetoRecordStep all branches i n c =
          (all, insertB branches c.branch i, i + 1, n))
    ∧ (∀ (all : List CS) (branches : List (Option String × Nat)) (i n : Nat)
        (c : CS) (g : String) (j : Nat),
        mergetoSearch c.comment = some g →
        lookupB branches (headNone g) = some j →
        c.branch ≠ headNone g →
        mergetoRecordStep all branches i n c =
          (insertAt all (i + 1) (fromMerge c i (all.getD j default) j),
           insertB branches (headNone g) (i + 1), i + 2, n + 1) ∧
        lookupB (insertB branches (headNone g) (i + 1)) c.branch =
          lookupB branches c.branch) :=
  ⟨mergetoRecordStep_record,
   fun all branches i n c g j hg hlk hne =>
     ⟨mergetoRecordStep_insert all branches i n c g j hg hlk hne,
      lookupB_insertB_ne branches _ c.branch (i + 1) hne⟩⟩

/-- Witness for `mergeto_branch_recording`: both cases at concrete walk
states, hypotheses discharged by evaluation. -/
theorem mergeto_branch_recording_witness :
    mergetoRecordStep [] [] 0 1 (fromLogentry (mkEntry "w,v" "w" [1, 1]
        (5, 0) "w" "wm")) =
      ([], insertB [] none 0, 1, 1) ∧
    (mergetoRecordStep [fromLogentry (mkEntry "x,v" "x" [1, 1, 2, 1] (1, 0)
        "u" "a")] [(some "B", 0)] 1 2
        (fromLogentry (mkEntry "y,v" "y" [1, 1] (2, 0) "v"
          "\x7b\x7bmergetobranch B\x7d\x7d")) =
      (insertAt [fromLogentry (mkEntry "x,v" "x" [1, 1, 2, 1] (1, 0) "u"
          "a")] 2
        (fromMerge (fromLogentry (mkEntry "y,v" "y" [1, 1] (2, 0) "v"
          "\x7b\x7bmergetobranch B\x7d\x7d")) 1
          ([fromLogentry (mkEntry "x,v" "x" [1, 1, 2, 1] (1, 0) "u"
            "a")].getD 0 default) 0),
       insertB [(some "B", 0)] (headNone "B") 2, 3, 3) ∧
      lookupB (insertB [(some "B", 0)] (headNone "B") 2) none =
        lookupB [(some "B", 0)] none) :=
  ⟨mergeto_branch_recording.1 [] [] 0 1
      (fromLogentry (mkEntry "w,v" "w" [1, 1] (5, 0) "w" "wm"))
      (Or.inl (by rfl)),
   mergeto_branch_recording.2
      [fromLogentry (mkEntry "x,v" "x" [1, 1, 2, 1] (1, 0) "u" "a")]
      [(some "B", 0)] 1 2
      (fromLogentry (mkEntry "y,v" "y" [1, 1] (2, 0) "v"
        "\x7b\x7bmergetobranch B\x7d\x7d")) "B" 0
      (by rfl) (by rfl) (by decide)⟩

/-- C4, amended: when the mergeto conditions hold, a merge changeset is
inserted immediately after the current index with two parents
`[current, changesets[branch_map[target]]]`, author/date from the current
changeset, branch from the target, and comment
`convert-repo: CVS merge from branch <src>` where `<src>` is Python
`str(current.branch)` — so `"None"`, not `HEAD`, when the merging changeset
is on trunk. -/
theorem mergeto_insert_shape :
    (∀ (all : List CS) (branches : List (Option String × Nat)) (i n : Nat)
        (c : CS) (g : String) (j : Nat),
        mergetoSearch c.comment = some g →
        lookupB branches (headNone g) = some j →
        c.branch ≠ headNone g →
        mergetoRecordStep all branches i n c =
          (insertAt all (i + 1) (fromMerge c i (all.getD j default) j),
           insertB branches (headNone g) (i + 1), i + 2, n + 1))
    ∧ (∀ (fromCs toCs : CS) (fi ti : Nat),
        (fromMerge fromCs fi toCs ti).comment =
          "convert-repo: CVS merge from branch " ++ pyOptStr fromCs.branch ∧
        (fromMerge fromCs fi toCs ti).parents = [fi, ti] ∧
        (fromMerge fromCs fi toCs ti).branch = toCs.branch ∧
        (fromMerge fromCs fi toCs ti).author = fromCs.author ∧
        (fromMerge fromCs fi toCs ti).date = fromCs.date)
    ∧ pyOptStr (none : Option String) = "None" :=
  ⟨mergetoRecordStep_insert,
   fun _ _ _ _ => ⟨rfl, rfl, rfl, rfl, rfl⟩,
   rfl⟩

/-- Witness for `mergeto_insert_shape`: the insertion equation applied at a
concrete trunk changeset (branch `None`), whose inserted comment therefore
reads `... from branch None`. -/
theorem mergeto_insert_shape_witness :
    mergetoRecordStep [fromLogentry (mkEntry "x,v" "x" [1, 1, 2, 1] (1, 0)
        "u" "a")] [(some "B", 0)] 1 2
      (fromLogentry (mkEntry "y,v" "y" [1, 1] (2, 0) "v"
        "\x7b\x7bmergetobranch B\x7d\x7d")) =
      (insertAt [fromLogentry (mkEntry "x,v" "x" [1, 1, 2, 1] (1, 0) "u"
          "a")] 2
        (fromMerge (fromLogentry (mkEntry "y,v" "y" [1, 1] (2, 0) "v"
          "\x7b\x7bmergetobranch B\x7d\x7d")) 1
          ([fromLogentry (mkEntry "x,v" "x" [1, 1, 2, 1] (1, 0) "u"
            "a")].getD 0 default) 0),
       insertB [(some "B", 0)] (headNone "B") 2, 3, 3) ∧
    (fromMerge (fromLogentry (mkEntry "y,v" "y" [1, 1] (2, 0) "v"
        "\x7b\x7bmergetobranch B\x7d\x7d")) 1
        ([fromLogentry (mkEntry "x,v" "x" [1, 1, 2, 1] (1, 0) "u"
          "a")].getD 0 default) 0).comment =
      "convert-repo: CVS merge from branch None" :=
  ⟨mergeto_insert_shape.1
      [fromLogentry (mkEntry "x,v" "x" [1, 1, 2, 1] (1, 0) "u" "a")]
      [(some "B", 0)] 1 2
      (fromLogentry (mkEntry "y,v" "y" [1, 1] (2, 0) "v"
        "\x7b\x7bmergetobranch B\x7d\x7d")) "B" 0
      (by rfl) (by rfl) (by decide),
   by
    rw [(mergeto_insert_shape.2.1 (fromLogentry (mkEntry "y,v" "y" [1, 1]
      (2, 0) "v" "\x7b\x7bmergetobranch B\x7d\x7d")) ([fromLogentry
      (mkEntry "x,v" "x" [1, 1, 2, 1] (1, 0) "u" "a")].getD 0 default) 1
      0).1]
    rfl⟩

theorem lookupV_insertV_same (m : List ((String × List Int) × List Int))
    (k : String × List Int) (v : List Int) :
    lookupV (insertV m k v) k = some v := by
  simp [lookupV, insertV, List.find?_cons_of_pos]

theorem lookupV_insertV_ne (m : List ((String × List Int) × List Int))
    (k k' : String × List Int) (v : List Int) (h : k' ≠ k) :
    lookupV (insertV m k v) k' = lookupV m k' := by
  unfold lookupV insertV
  rw [List.find?_cons_of_neg]
  simp [Ne.symm h]

theorem lookupV_versionsAfter (pre : List LogEntry)
    (versions : List ((String × List Int) × List Int))
    (k : String × List Int) :
    lookupV (versionsAfter versions pre) k =
      match (pre.filter fun e2 => revPrefixKey e2 = k).getLast? with
      | some e2 => some e2.revision
      | none => lookupV versions k := by
  induction pre generalizing versions with
  | nil => simp [versionsAfter]
  | cons e0 rest ih =>
    rw [versionsAfter, List.foldl_cons]
    rw [show List.foldl _ (insertV versions (revPrefixKey e0) e0.revision)
      rest = versionsAfter (insertV versions (revPrefixKey e0) e0.revision)
      rest from rfl]
    rw [ih]
    by_cases h0 : revPrefixKey e0 = k
    · rw [List.filter_cons_of_pos (by simp [h0]), List.getLast?_cons]
      cases hrest : (rest.filter fun e2 => revPrefixKey e2 = k).getLast? with
      | some e2 => rfl
      | none =>
        dsimp only [Option.getD_none]
        exact h0 ▸ lookupV_insertV_same versions (revPrefixKey e0) e0.revision
    · rw [List.filter_cons_of_neg (by simp [h0])]
      cases hrest : (rest.filter fun e2 => revPrefixKey e2 = k).getLast? with
      | some e2 => rfl
      | none =>
        exact lookupV_insertV_ne versions _ k _ (fun he => h0 he.symm)

theorem parentPassGo_length (versions : List ((String × List Int) × List Int))
    (log : List LogEntry) :
    (parentPassGo versions log).length = log.length := by
  induction log generalizing versions with
  | nil => rfl
  | cons e0 rest ih => simp [parentPassGo, ih]

theorem parentPassGo_getElem
    (log : List LogEntry) : ∀ (versions : List ((String × List Int) ×
      List Int)) (i : Nat) (e : LogEntry), log[i]? = some e →
    (parentPassGo versions log)[i]? = some { e with parent :=
      (match lookupV (versionsAfter versions (log.take i)) (revPrefixKey e)
       with
       | some r => r
       | none => e.revision.take (e.revision.length - 2)) } := by
  induction log with
  | nil => intro versions i e he; simp at he
  | cons e0 rest ih =>
    intro versions i e he
    cases i with
    | zero =>
      rw [List.getElem?_cons_zero, Option.some_inj] at he
      subst he
      rw [parentPassGo]
      rw [List.getElem?_cons_zero]
      rfl
    | succ j =>
      rw [List.getElem?_cons_succ] at he
      rw [parentPassGo, List.getElem?_cons_succ]
      exact ih (insertV versions (revPrefixKey e0) e0.revision) j e he

theorem lookupV_priorMatch (log : List LogEntry) (i : Nat) (e : LogEntry) :
    lookupV (versionsAfter [] (log.take i)) (revPrefixKey e) =
      priorMatch log i e := by
  rw [lookupV_versionsAfter]
  unfold priorMatch
  cases h : ((log.take i).filter
      fun e2 => revPrefixKey e2 = revPrefixKey e).getLast? with
  | some e2 => simp [h]
  | none => simp [h, lookupV]

theorem priorMatch_mem (log : List LogEntry) (i : Nat) (e : LogEntry)
    (r : List Int) (h : priorMatch log i e = some r) :
    ∃ e2 ∈ log, r = e2.revision := by
  unfold priorMatch at h
  cases hl : ((log.take i).filter
      fun e2 => revPrefixKey e2 = revPrefixKey e).getLast? with
  | none => rw [hl] at h; exact absurd h (by simp)
  | some e2 =>
    rw [hl] at h
    have hr : r = e2.revision := by simpa using h.symm
    have hm := List.mem_of_mem_getLast? hl
    rw [List.mem_filter] at hm
    exact ⟨e2, List.mem_of_mem_take hm.1, hr⟩

/-- C7, amended: after the parent pass, each entry's parent is the latest
prior revision of the same rcs file with the same branch prefix when one
exists, else the branch root `revision[:-2]`; the parent is the empty tuple
exactly for a length-2 revision with no prior same-prefix revision (which
includes the very first trunk revision, but also later trunk revisions with
a fresh leading component). -/
theorem parentPass_characterisation :
    (∀ log : List LogEntry, resolveParents log =
      parentPassGo [] (List.insertionSort rcsRevLt log))
    ∧ (∀ (log : List LogEntry) (i : Nat) (e : LogEntry), log[i]? = some e →
        (parentPassGo [] log)[i]? = some { e with parent :=
          (match priorMatch log i e with
           | some r => r
           | none => e.revision.take (e.revision.length - 2)) })
    ∧ (∀ log : List LogEntry, (∀ e2 ∈ log, 2 ≤ e2.revision.length) →
        ∀ (i : Nat) (e eOut : LogEntry), log[i]? = some e →
          (parentPassGo [] log)[i]? = some eOut →
          (eOut.parent = [] ↔
            (e.revision.length = 2 ∧ priorMatch log i e = none))) := by
  have part2 : ∀ (log : List LogEntry) (i : Nat) (e : LogEntry),
      log[i]? = some e →
      (parentPassGo [] log)[i]? = some { e with parent :=
        (match priorMatch log i e with
         | some r => r
         | none => e.revision.take (e.revision.length - 2)) } := by
    intro log i e he
    rw [parentPassGo_getElem log [] i e he, Option.some_inj]
    rw [lookupV_priorMatch]
  refine ⟨fun _ => rfl, part2, ?_⟩
  intro log hlen i e eOut he hOut
  rw [part2 log i e he, Option.some_inj] at hOut
  subst hOut
  dsimp only
  cases hp : priorMatch log i e with
  | some r =>
    dsimp only
    obtain ⟨e2, he2, rfl⟩ := priorMatch_mem log i e _ hp
    have h2 : 2 ≤ e2.revision.length := hlen e2 he2
    constructor
    · intro hnil
      rw [hnil] at h2
      exact absurd h2 (by simp)
    · rintro ⟨_, hq⟩
      exact Option.noConfusion hq
  | none =>
    dsimp only
    have hmem : e ∈ log := List.getElem?_mem he
    have h2 : 2 ≤ e.revision.length := hlen e hmem
    rw [List.take_eq_nil_iff]
    constructor
    · rintro (hz | hnil)
      · exact ⟨by omega, rfl⟩
      · rw [hnil] at h2; exact absurd h2 (by simp)
    · rintro ⟨hl2, _⟩
      exact Or.inl (by omega)

/-- Witness for `parentPass_characterisation`: the absent-parent
characterisation applied to the second entry of `cexLogC7`, hypotheses
discharged by evaluation. -/
theorem parentPass_characterisation_witness :
    (mkEntry "a,v" "a" [2, 1] (10, 0) "u" "m2").parent = [] ↔
      ((mkEntry "a,v" "a" [2, 1] (10, 0) "u" "m2").revision.length = 2 ∧
        priorMatch cexLogC7 1 (mkEntry "a,v" "a" [2, 1] (10, 0) "u" "m2") =
          none) :=
  parentPass_characterisation.2.2 cexLogC7 (by decide) 1
    (mkEntry "a,v" "a" [2, 1] (10, 0) "u" "m2")
    (mkEntry "a,v" "a" [2, 1] (10, 0) "u" "m2") (by rfl) (by rfl)

theorem groupInv_fromLogentry (fuzz : Int) (e : LogEntry) :
    groupInv fuzz (fromLogentry e) := by
  refine ⟨rfl, rfl, fun _ => ⟨List.nodup_singleton _, List.chain'_singleton _⟩⟩

theorem groupInv_csAdd (fuzz : Int) (c : CS) (e : LogEntry)
    (hinv : groupInv fuzz c) (hcov : canCover c e fuzz = true) :
    groupInv fuzz (csAdd c e) := by
  obtain ⟨hfiles, hdate, hcond⟩ := hinv
  refine ⟨?_, ?_, ?_⟩
  · simp [csAdd, hfiles]
  · simp [csAdd, dateSum]
  · intro hcid
    have hcid' : c.commitid = none := by
      by_contra hne
      cases hc : c.commitid with
      | none => exact hne hc
      | some cid =>
        unfold canCover at hcov
        rw [hc] at hcov
        split at hcov
        · exact Bool.noConfusion hcov
        · simp only [decide_eq_true_eq] at hcov
          simp [csAdd, hc] at hcid
    obtain ⟨hnodup, hchain⟩ := hcond hcid'
    unfold canCover at hcov
    rw [hcid'] at hcov
    split at hcov
    · exact Bool.noConfusion hcov
    · simp only [Bool.and_eq_true, decide_eq_true_eq, Bool.not_eq_true',
        decide_eq_false_iff_not] at hcov
      obtain ⟨⟨⟨⟨⟨⟨_, _⟩, _⟩, _⟩, hnotmem⟩, hle⟩, hlt⟩ := hcov
      constructor
      · rw [csAdd]
        simp only [List.map_append, List.map_cons, List.map_nil]
        rw [List.nodup_append]
        refine ⟨hnodup, List.nodup_singleton _, ?_⟩
        intro a ha hb
        rw [List.mem_singleton] at hb
        subst hb
        have hnm : e.file ∉ c.files := by simpa using hnotmem
        exact hnm (by rw [hfiles]; exact ha)
      · rw [csAdd]
        simp only [List.map_append, List.map_cons, List.map_nil]
        rw [List.chain'_append]
        refine ⟨hchain, List.chain'_singleton _, ?_⟩
        intro x hx y hy
        rw [hdate] at hx
        rw [Option.mem_def, Option.some_inj] at hx
        subst hx
        simp only [List.head?_cons, Option.mem_def, Option.some_inj] at hy
        subst hy
        exact ⟨hle, hlt⟩

theorem groupGo_inv (fuzz : Int) :
    ∀ (log : List LogEntry) (cur : Option CS) (acc : List CS),
    (∀ c ∈ acc, groupInv fuzz c) →
    (∀ c, cur = some c → groupInv fuzz c) →
    ∀ c ∈ groupGo fuzz log cur acc, groupInv fuzz c := by
  intro log
  induction log with
  | nil =>
    intro cur acc hacc hcur c hc
    rw [groupGo] at hc
    rcases List.mem_append.mp hc with h | h
    · exact hacc c h
    · cases cur with
      | none => simp at h
      | some c0 =>
        rw [Option.toList_some, List.mem_singleton] at h
        exact h ▸ hcur c0 rfl
  | cons e rest ih =>
    intro cur acc hacc hcur c hc
    cases cur with
    | none =>
      rw [groupGo] at hc
      exact ih (some (fromLogentry e)) acc hacc
        (fun c0 h0 => (Option.some_inj.mp h0) ▸ groupInv_fromLogentry fuzz e)
        c hc
    | some c0 =>
      rw [groupGo] at hc
      by_cases hcov : canCover c0 e fuzz
      · rw [if_pos hcov] at hc
        exact ih (some (csAdd c0 e)) acc hacc
          (fun c1 h1 => (Option.some_inj.mp h1) ▸
            groupInv_csAdd fuzz c0 e (hcur c0 rfl) hcov) c hc
      · rw [if_neg hcov] at hc
        refine ih (some (fromLogentry e)) (acc ++ [c0]) ?_
          (fun c1 h1 => (Option.some_inj.mp h1) ▸ groupInv_fromLogentry fuzz e)
          c hc
        intro c1 h1
        rcases List.mem_append.mp h1 with h | h
        · exact hacc c1 h
        · exact (List.mem_singleton.mp h) ▸ hcur c0 rfl

theorem groupEntries_inv (fuzz : Int) (log : List LogEntry) :
    ∀ c ∈ groupEntries fuzz log, groupInv fuzz c :=
  groupGo_inv fuzz log none [] (by simp) (by simp)

theorem insertionSortLe_eq_of_perm (l l2 : List Int) (h : List.Perm l l2) :
    List.insertionSort (· ≤ ·) l = List.insertionSort (· ≤ ·) l2 :=
  List.eq_of_perm_of_sorted
    ((List.perm_insertionSort _ l).trans
      (h.trans (List.perm_insertionSort _ l2).symm))
    (List.sorted_insertionSort _ l) (List.sorted_insertionSort _ l2)

theorem insertionSortLe_eq_self (l : List Int) (h : List.Sorted (· ≤ ·) l) :
    List.insertionSort (· ≤ ·) l = l :=
  List.eq_of_perm_of_sorted (List.perm_insertionSort _ l)
    (List.sorted_insertionSort _ l) h

theorem chain'_gapRel_sorted (fuzz : Int) (l : List Int)
    (h : List.Chain' (gapRel fuzz) l) : List.Sorted (· ≤ ·) l := by
  have h2 : List.Chain' (· ≤ ·) l := List.Chain'.imp (fun a b hab => hab.1) h
  rw [List.chain'_iff_pairwise] at h2
  exact h2

/-- The safety property of interest for C2/C3, in an entry-permutation
stable form. -/
theorem goodCS_of_groupInv (fuzz : Int) (c : CS) (h : groupInv fuzz c)
    (hcid : c.commitid = none) :
    (c.entries.map (·.file)).Nodup ∧
      List.Chain' (gapRel fuzz) (sortedSums c) := by
  obtain ⟨hnodup, hchain⟩ := h.2.2 hcid
  refine ⟨hnodup, ?_⟩
  unfold sortedSums
  rw [insertionSortLe_eq_self _ (chain'_gapRel_sorted fuzz _ hchain)]
  exact hchain

theorem goodCS_transfer (fuzz : Int) (c c0 : CS)
    (hcid : c.commitid = c0.commitid) (hperm : List.Perm c.entries c0.entries)
    (h : c0.commitid = none →
      (c0.entries.map (·.file)).Nodup ∧
        List.Chain' (gapRel fuzz) (sortedSums c0))
    (hc : c.commitid = none) :
    (c.entries.map (·.file)).Nodup ∧
      List.Chain' (gapRel fuzz) (sortedSums c) := by
  obtain ⟨hnodup, hchain⟩ := h (hcid ▸ hc)
  constructor
  · exact (List.Perm.map (·.file) hperm).nodup_iff.mpr hnodup
  · unfold sortedSums at hchain ⊢
    rw [insertionSortLe_eq_of_perm _ _ (List.Perm.map dateSum hperm)]
    exact hchain


theorem parentResolve_fields (all : List CS) (c c1 : CS) (pj : Nat)
    (h : parentResolve all c pj = .ok c1) :
    c1.entries = c.entries ∧ c1.commitid = c.commitid := by
  unfold parentResolve at h
  repeat' split at h
  all_goals
    first
      | (rw [Except.ok.injEq] at h; subst h; exact ⟨rfl, rfl⟩)
      | exact Except.noConfusion h

theorem parentPhase_fields (all : List CS)
    (br : List (Option String × Nat)) (i : Nat) (c c1 : CS)
    (h : parentPhase all br i c = .ok c1) :
    c1.entries = c.entries ∧ c1.commitid = c.commitid := by
  unfold parentPhase at h
  repeat' split at h
  all_goals
    first
      | (rw [Except.ok.injEq] at h; subst h; exact ⟨rfl, rfl⟩)
      | exact Except.noConfusion h
      | exact parentResolve_fields all c c1 _ h

theorem mpAppend_fields (all : List CS)
    (br : List (Option String × Nat)) (c c1 : CS) (key : Option String)
    (h : mpAppend all br c key = .ok c1) :
    c1.entries = c.entries ∧ c1.commitid = c.commitid := by
  unfold mpAppend at h
  repeat' split at h
  all_goals
    first
      | (rw [Except.ok.injEq] at h; subst h; exact ⟨rfl, rfl⟩)
      | exact Except.noConfusion h

theorem mergepointPhase_fields (all : List CS)
    (br : List (Option String × Nat)) (c c1 : CS)
    (h : mergepointPhase all br c = .ok c1) :
    c1.entries = c.entries ∧ c1.commitid = c.commitid := by
  unfold mergepointPhase at h
  repeat' split at h
  all_goals
    first
      | (rw [Except.ok.injEq] at h; subst h; exact ⟨rfl, rfl⟩)
      | exact Except.noConfusion h
      | exact mpAppend_fields all br { c with mergepoint := none } c1 none h
      | exact mpAppend_fields all br c c1 _ h

theorem mergefromPhase_fields (all : List CS)
    (br : List (Option String × Nat)) (c c1 : CS)
    (h : mergefromPhase all br c = .ok c1) :
    c1.entries = c.entries ∧ c1.commitid = c.commitid := by
  unfold mergefromPhase at h
  repeat' split at h
  all_goals
    first
      | (rw [Except.ok.injEq] at h; subst h; exact ⟨rfl, rfl⟩)
      | exact Except.noConfusion h

theorem mem_insertAt : ∀ (l : List CS) (n : Nat) (x a : CS),
    a ∈ insertAt l n x → a = x ∨ a ∈ l := by
  intro l
  induction l with
  | nil =>
    intro n x a h
    cases n with
    | zero => rw [insertAt] at h; exact Or.inl (List.mem_singleton.mp h)
    | succ m => rw [insertAt] at h; exact Or.inl (List.mem_singleton.mp h)
  | cons y ys ih =>
    intro n x a h
    cases n with
    | zero =>
      rw [insertAt] at h
      rcases List.mem_cons.mp h with rfl | h2
      · exact Or.inl rfl
      · exact Or.inr h2
    | succ m =>
      rw [insertAt] at h
      rcases List.mem_cons.mp h with rfl | h2
      · exact Or.inr (List.mem_cons_self ..)
      · rcases ih m x a h2 with h3 | h3
        · exact Or.inl h3
        · exact Or.inr (List.mem_cons_of_mem _ h3)

theorem mergetoRecordStep_all_shape (A : List CS)
    (br : List (Option String × Nat)) (i n : Nat) (c : CS) :
    (mergetoRecordStep A br i n c).1 = A ∨
    ∃ x, (mergetoRecordStep A br i n c).1 = insertAt A (i + 1) x ∧
      x.entries = [] ∧ x.commitid = none := by
  unfold mergetoRecordStep
  repeat' split
  all_goals
    first
      | exact Or.inl rfl
      | exact Or.inr ⟨_, rfl, rfl, rfl⟩

theorem walkStep_elems (all : List CS) (br : List (Option String × Nat))
    (i n : Nat) (all1 : List CS) (br1 : List (Option String × Nat))
    (i1 n1 : Nat) (h : walkStep all br i n = .ok (all1, br1, i1, n1)) :
    ∀ c1 ∈ all1,
      (∃ c ∈ all, c1.entries = c.entries ∧ c1.commitid = c.commitid) ∨
      (c1.entries = [] ∧ c1.commitid = none) := by
  unfold walkStep at h
  cases hc : all[i]? with
  | none => rw [hc] at h; exact absurd h (by simp)
  | some c =>
    rw [hc] at h
    dsimp only at h
    cases hp1 : parentPhase all br i c with
    | error e => rw [hp1] at h; exact absurd h (by simp)
    | ok c1' =>
      rw [hp1] at h
      dsimp only at h
      cases hp2 : mergepointPhase all br c1' with
      | error e => rw [hp2] at h; exact absurd h (by simp)
      | ok c2 =>
        rw [hp2] at h
        dsimp only at h
        cases hp3 : mergefromPhase all br c2 with
        | error e => rw [hp3] at h; exact absurd h (by simp)
        | ok c3 =>
          rw [hp3] at h
          dsimp only at h
          rw [Except.ok.injEq] at h
          have hfield : c3.entries = c.entries ∧ c3.commitid = c.commitid := by
            have f1 := parentPhase_fields all br i c c1' hp1
            have f2 := mergepointPhase_fields all br c1' c2 hp2
            have f3 := mergefromPhase_fields all br c2 c3 hp3
            exact ⟨f3.1.trans (f2.1.trans f1.1), f3.2.trans (f2.2.trans f1.2)⟩
          intro cm hcm
          have hall1 : all1 = (mergetoRecordStep (all.set i c3) br i n c3).1 := by
            rw [h]
          rcases mergetoRecordStep_all_shape (all.set i c3) br i n c3 with
            hsh | ⟨x, hsh, hxe, hxc⟩
          · rw [hall1, hsh] at hcm
            rcases List.mem_or_eq_of_mem_set hcm with hmem | rfl
            · exact Or.inl ⟨cm, hmem, rfl, rfl⟩
            · exact Or.inl ⟨c, List.getElem?_mem hc, hfield.1, hfield.2⟩
          · rw [hall1, hsh] at hcm
            rcases mem_insertAt _ _ _ _ hcm with rfl | hmem
            · exact Or.inr ⟨hxe, hxc⟩
            · rcases List.mem_or_eq_of_mem_set hmem with hmem2 | rfl
              · exact Or.inl ⟨cm, hmem2, rfl, rfl⟩
              · exact Or.inl ⟨c, List.getElem?_mem hc, hfield.1, hfield.2⟩

theorem walkAux_elems : ∀ (fuel : Nat) (all : List CS)
    (br : List (Option String × Nat)) (i n : Nat) (all' : List CS)
    (br' : List (Option String × Nat)),
    walkAux fuel all br i n = .ok (all', br') →
    ∀ c' ∈ all',
      (∃ c ∈ all, c'.entries = c.entries ∧ c'.commitid = c.commitid) ∨
      (c'.entries = [] ∧ c'.commitid = none) := by
  intro fuel
  induction fuel with
  | zero =>
    intro all br i n all' br' h c' hc'
    rw [walkAux] at h
    split at h
    · exact absurd h (by simp)
    · rw [Except.ok.injEq, Prod.mk.injEq] at h
      obtain ⟨rfl, rfl⟩ := h
      exact Or.inl ⟨c', hc', rfl, rfl⟩
  | succ m ih =>
    intro all br i n all' br' h c' hc'
    rw [walkAux] at h
    split at h
    · cases hws : walkStep all br i n with
      | error e => rw [hws] at h; exact absurd h (by simp)
      | ok t =>
        obtain ⟨all1, br1, i1, n1⟩ := t
        rw [hws] at h
        dsimp only at h
        rcases ih all1 br1 i1 n1 all' br' h c' hc' with
          ⟨c1, hc1, he1, hcid1⟩ | hm
        · rcases walkStep_elems all br i n all1 br1 i1 n1 hws c1 hc1 with
            ⟨c0, hc0, he0, hcid0⟩ | hm0
          · exact Or.inl ⟨c0, hc0, he1.trans he0, hcid1.trans hcid0⟩
          · exact Or.inr ⟨he1.trans hm0.1, hcid1.trans hm0.2⟩
        · exact Or.inr hm
    · rw [Except.ok.injEq, Prod.mk.injEq] at h
      obtain ⟨rfl, rfl⟩ := h
      exact Or.inl ⟨c', hc', rfl, rfl⟩

theorem assignTagsGo_mem (gt : List (String × Nat)) :
    ∀ (k : Nat) (l : List CS) (c : CS), c ∈ assignTagsGo gt k l →
      ∃ c₀ ∈ l, c.entries = c₀.entries ∧ c.commitid = c₀.commitid := by
  intro k l
  induction l generalizing k with
  | nil => intro c h; exact absurd h (by simp [assignTagsGo])
  | cons x xs ih =>
    intro c h
    rw [assignTagsGo] at h
    rcases List.mem_cons.mp h with rfl | h2
    · exact ⟨x, List.mem_cons_self .., rfl, rfl⟩
    · obtain ⟨c₀, hc₀, he⟩ := ih (k + 1) c h2
      exact ⟨c₀, List.mem_cons_of_mem _ hc₀, he⟩

theorem numberGo_fields : ∀ (k : Nat) (l : List CS) (c : CS),
    c ∈ numberGo k l →
      ∃ c₀ ∈ l, c.entries = c₀.entries ∧ c.commitid = c₀.commitid := by
  intro k l
  induction l generalizing k with
  | nil => intro c h; exact absurd h (by simp [numberGo])
  | cons x xs ih =>
    intro c h
    rw [numberGo] at h
    rcases List.mem_cons.mp h with rfl | h2
    · exact ⟨x, List.mem_cons_self .., rfl, rfl⟩
    · obtain ⟨c₀, hc₀, he⟩ := ih (k + 1) c h2
      exact ⟨c₀, List.mem_cons_of_mem _ hc₀, he⟩

theorem createchangeset_elems (log : List LogEntry) (fuzz : Int)
    (out : List CS) (h : createchangeset log fuzz = .ok out) :
    ∀ c ∈ out,
      (∃ c₀ ∈ groupEntries fuzz
          (List.insertionSort (logKeyLt (mindateMap log)) log),
        c.commitid = c₀.commitid ∧ List.Perm c.entries c₀.entries) ∨
      (c.entries = [] ∧ c.commitid = none) := by
  intro c hc
  unfold createchangeset at h
  cases hrp : runPipeline log fuzz with
  | error e => rw [hrp] at h; exact absurd h (by simp)
  | ok pr =>
    obtain ⟨all, out'⟩ := pr
    rw [hrp] at h
    rw [Except.ok.injEq] at h
    subst h
    unfold runPipeline at hrp
    cases hw : runWalk log fuzz with
    | error e => rw [hw] at hrp; exact absurd hrp (by simp)
    | ok w =>
      obtain ⟨wall, wbr⟩ := w
      rw [hw] at hrp
      rw [Except.ok.injEq, Prod.mk.injEq] at hrp
      obtain ⟨rfl, rfl⟩ := hrp
      obtain ⟨cf, hcf, hef, hcidf⟩ := numberGo_fields 0 _ c hc
      have hcw : cf ∈ wall := List.mem_of_mem_filter hcf
      have hwalk := walkAux_elems (prepChangesets log fuzz).length
        (prepChangesets log fuzz) [] 0 (prepChangesets log fuzz).length
        wall wbr (by rw [← hw]; rfl) cf hcw
      rcases hwalk with ⟨cp, hcp, hep, hcidp⟩ | hm
      · -- cp is in prepChangesets
        unfold prepChangesets at hcp
        obtain ⟨cs1, hcs1, hes1, hcids1⟩ := assignTagsGo_mem _ 0 _ cp hcp
        have hcs2 : cs1 ∈ (groupEntries fuzz
            (List.insertionSort (logKeyLt (mindateMap log)) log)).map
            (fun c => { c with
              entries := List.insertionSort entryFileLt c.entries }) :=
          (List.perm_insertionSort cscmpLt _).mem_iff.mp hcs1
        obtain ⟨c₀, hc₀, hback⟩ := List.mem_map.mp hcs2
        refine Or.inl ⟨c₀, hc₀, ?_, ?_⟩
        · rw [hcidf, hcidp, hcids1, ← hback]
        · rw [hef, hep, hes1, ← hback]
          exact List.perm_insertionSort entryFileLt c₀.entries
      · exact Or.inr ⟨hef.trans hm.1, hcidf.trans hm.2⟩

/-- C2, amended: in every changeset produced by `createchangeset` with no
commitid, the entry date sums arranged in nondecreasing order advance by
less than `fuzz` between consecutive entries (the window slides, so only
adjacent gaps — not the total spread — are bounded by `fuzz`). -/
theorem createchangeset_fuzz_chain :
    ∀ (log : List LogEntry) (fuzz : Int) (out : List CS),
      createchangeset log fuzz = .ok out → ∀ c ∈ out, c.commitid = none →
        List.Chain' (gapRel fuzz) (sortedSums c) := by
  intro log fuzz out h c hc hcid
  rcases createchangeset_elems log fuzz out h c hc with
    ⟨c₀, hc₀, hcid0, hperm⟩ | ⟨he, _⟩
  · exact (goodCS_transfer fuzz c c₀ hcid0 hperm
      (fun hn => goodCS_of_groupInv fuzz c₀
        (groupEntries_inv fuzz _ c₀ hc₀) hn) hcid).2
  · rw [sortedSums, he]
    exact List.chain'_nil

/-- Witness for `createchangeset_fuzz_chain`: the run on `cexLogC2`
(one commitid-less changeset), hypotheses discharged by evaluation. -/
theorem createchangeset_fuzz_chain_witness :
    List.Chain' (gapRel 60) (sortedSums (witOutC1.getD 0 default)) :=
  createchangeset_fuzz_chain cexLogC2 60 witOutC1 (by rfl)
    (witOutC1.getD 0 default) (by decide) (by rfl)

/-- C3, amended: in every changeset produced by `createchangeset` with no
commitid, no two entries refer to the same file path (the check is absent
for changesets grouped by a shared commitid). -/
theorem createchangeset_files_nodup :
    ∀ (log : List LogEntry) (fuzz : Int) (out : List CS),
      createchangeset log fuzz = .ok out → ∀ c ∈ out, c.commitid = none →
        (c.entries.map (·.file)).Nodup := by
  intro log fuzz out h c hc hcid
  rcases createchangeset_elems log fuzz out h c hc with
    ⟨c₀, hc₀, hcid0, hperm⟩ | ⟨he, _⟩
  · exact (goodCS_transfer fuzz c c₀ hcid0 hperm
      (fun hn => goodCS_of_groupInv fuzz c₀
        (groupEntries_inv fuzz _ c₀ hc₀) hn) hcid).1
  · rw [he]
    exact List.nodup_nil

/-- Witness for `createchangeset_files_nodup`: the run on `cexLogC2`,
hypotheses discharged by evaluation. -/
theorem createchangeset_files_nodup_witness :
    ((witOutC1.getD 0 default).entries.map (·.file)).Nodup :=
  createchangeset_files_nodup cexLogC2 60 witOutC1 (by rfl)
    (witOutC1.getD 0 default) (by decide) (by rfl)
